import Mathlib

/-!
Verification of the 64-bit Roaring bitmap layer (`cpp/roaring64map.hh`) and the
scalar bitset-container kernels (`src/containers/bitset.c`).

The 64-bit `Roaring64Map` is a sorted map from 32-bit outer keys to 32-bit
Roaring bitmaps.  The 32-bit `Roaring` implementation itself is not part of
this repository slice, so it is modelled from the specification as a strictly
sorted list of 32-bit values together with the operations the 64-bit layer
invokes on it.  Everything in the `Roaring64Map` namespace is translated
directly from `roaring64map.hh`; everything in the `bitset` section is
translated from the non-AVX branch of `bitset.c`.

Machine integers are modelled as `Nat` with explicit truncations (`% 2^32`,
`>>> 32`) exactly where the C++ code performs casts.
-/

namespace CRoaring

/-- `highBytes` from roaring64map.hh: `uint32_t(in >> 32)`. -/
def highBytes (x : Nat) : Nat := (x >>> 32) % 2 ^ 32

/-- `lowBytes` from roaring64map.hh: `uint32_t(in)`. -/
def lowBytes (x : Nat) : Nat := x % 2 ^ 32

/-- `uniteBytes` from roaring64map.hh:
`(uint64_t(highBytes) << 32) | uint64_t(lowBytes)`. -/
def uniteBytes (h l : Nat) : Nat := (h <<< 32) ||| l

/-! ## The inner 32-bit Roaring bitmap, modelled from the spec

The 32-bit Roaring implementation (`roaring.hh` / its C core) is not part of
this repository slice; only `roaring64map.hh` calls into it.  Per the spec it
represents "a subset of [0, 2^32)" with set-algebra, rank, select, min/max,
range ops and serialization.  We model it as a strictly sorted list of natural
numbers below `2^32`. -/

/-- Modelled from the spec: a 32-bit Roaring bitmap is "an ordered map from
16-bit key to container, representing a subset of [0, 2^32)"; we model the
value set it represents directly as a strictly ascending list of values. -/
structure Roaring where
  vals : List Nat
deriving DecidableEq

namespace Roaring

/-- Modelled from the spec: the empty 32-bit bitmap. -/
def empty : Roaring := ⟨[]⟩

/-- Modelled from the spec: `is_empty() → bool` (cardinality is zero). -/
def isEmpty (r : Roaring) : Bool := r.vals.isEmpty

/-- Modelled from the spec: `contains(v) → bool` — returns whether v is
present. -/
def contains (r : Roaring) (x : Nat) : Bool := r.vals.contains x

/-- Modelled from the spec: `cardinality()` — the number of stored values. -/
def cardinality (r : Roaring) : Nat := r.vals.length

/-- Modelled from the spec: "min / max: walk the map from the appropriate end
skipping empties" — the smallest stored value. -/
def minimum (r : Roaring) : Nat := r.vals.head?.getD 0

/-- Modelled from the spec: the largest stored value. -/
def maximum (r : Roaring) : Nat := r.vals.getLast?.getD 0

/-- Modelled from the spec: "rank(x): sum cardinalities for keys < high(x),
add container-rank(low(x)) if key high(x) exists" — i.e. the number of stored
values that are ≤ x (1-based; spec scenario 1 has rank(6) = 5 on
{1,2,3,5..10}). -/
def rank (r : Roaring) (x : Nat) : Nat := r.vals.countP (fun y => decide (y ≤ x))

/-- Modelled from the spec: "select(r): stream keys in order, subtract each
container cardinality until r falls inside one, then select within that
container" — 0-based (spec scenario 1 has select(0) = 1 on a set whose
minimum is 1). -/
def select (r : Roaring) (n : Nat) : Option Nat := r.vals[n]?

/-- Merge two strictly ascending lists into their strictly ascending union. -/
def mergeOr : List Nat → List Nat → List Nat
  | [], ys => ys
  | x :: xs, [] => x :: xs
  | x :: xs, y :: ys =>
    if x < y then x :: mergeOr xs (y :: ys)
    else if y < x then y :: mergeOr (x :: xs) ys
    else x :: mergeOr xs ys
termination_by a b => a.length + b.length

/-- Merge two strictly ascending lists into their strictly ascending
symmetric difference. -/
def mergeXor : List Nat → List Nat → List Nat
  | [], ys => ys
  | x :: xs, [] => x :: xs
  | x :: xs, y :: ys =>
    if x < y then x :: mergeXor xs (y :: ys)
    else if y < x then y :: mergeXor (x :: xs) ys
    else mergeXor xs ys
termination_by a b => a.length + b.length

/-- Modelled from the spec: pairwise union of two 32-bit Roaring bitmaps
(`operator|=` on the inner bitmap). -/
def or (a b : Roaring) : Roaring := ⟨mergeOr a.vals b.vals⟩

/-- Modelled from the spec: `roaring_bitmap_flip` — "Computes the negation of
the roaring bitmap within the half-open interval [range_start, range_end)".
Membership of every value in the interval is toggled. -/
def flip (r : Roaring) (start exEnd : Nat) : Roaring :=
  ⟨mergeXor r.vals (List.range' start (exEnd - start))⟩

/-- Modelled from the spec: inner `isSubset` — every stored value of `a` is
stored in `b`. -/
def isSubset (a b : Roaring) : Bool := a.vals.all (fun x => b.vals.contains x)

/-- Well-formedness of the model: strictly ascending values, all below 2^32. -/
def WF (r : Roaring) : Prop :=
  r.vals.Sorted (· < ·) ∧ ∀ x ∈ r.vals, x < 2 ^ 32

instance : DecidablePred WF := fun r =>
  inferInstanceAs (Decidable (_ ∧ _))

end Roaring

instance : IsAntisymm Nat (· < ·) :=
  ⟨fun _ _ hab hba => absurd hab (Nat.lt_asymm hba)⟩

/-! ## The 64-bit Roaring bitmap (`Roaring64Map` from roaring64map.hh)

`std::map<uint32_t, Roaring> roarings` is modelled as an association list
strictly sorted by key (the iteration order of `std::map`), plus the
`copyOnWrite` flag. -/

/-- `Roaring64Map` from roaring64map.hh: `roarings_t roarings` plus
`bool copyOnWrite{false}`. -/
structure Roaring64Map where
  roarings : List (Nat × Roaring) := []
  copyOnWrite : Bool := false
deriving DecidableEq

namespace Roaring64Map

/-- `std::map::find`: the inner bitmap stored at key k, if any. -/
def findKey : List (Nat × Roaring) → Nat → Option Roaring
  | [], _ => none
  | (k', r) :: rest, k => if k' = k then some r else findKey rest k

/-- Well-formedness: keys strictly ascending (the `std::map` invariant) and
below 2^32 (they are `uint32_t`), and each inner bitmap well formed. -/
def WF (m : Roaring64Map) : Prop :=
  (m.roarings.map Prod.fst).Sorted (· < ·) ∧
    ∀ e ∈ m.roarings, e.1 < 2 ^ 32 ∧ e.2.WF

instance : DecidablePred WF := fun m =>
  inferInstanceAs (Decidable (_ ∧ _))

/-- `isEmpty()` from roaring64map.hh: every inner bitmap is empty. -/
def isEmpty (m : Roaring64Map) : Bool :=
  m.roarings.all (fun e => e.2.isEmpty)

/-- The body of `contains(uint64_t x)`: look up key h; if found, ask the
inner bitmap about low. -/
def foundContains (l : List (Nat × Roaring)) (h low : Nat) : Bool :=
  match findKey l h with
  | some r => r.contains low
  | none => false

/-- `contains(uint64_t x)` from roaring64map.hh:
`iter = roarings.find(highBytes(x)); iter != end && iter->second.contains(lowBytes(x))`. -/
def contains (m : Roaring64Map) (x : Nat) : Bool :=
  foundContains m.roarings (highBytes x) (lowBytes x)

/-- The backward walk of `maximum()` from roaring64map.hh, expressed on the
reversed entry list: `--iter` from `end()` towards `begin()`, returning at
the first non-empty inner bitmap. -/
def maximumAux : List (Nat × Roaring) → Nat
  | [] => 0
  | (k, r) :: rest =>
    if r.isEmpty then maximumAux rest else uniteBytes k r.maximum

/-- `maximum()` from roaring64map.hh: walk the outer map from the back,
skipping empty inner bitmaps; return 0 if none is non-empty. -/
def maximum (m : Roaring64Map) : Nat := maximumAux m.roarings.reverse

/-- The forward walk of `minimum()` from roaring64map.hh: return at the
first non-empty inner bitmap; `std::numeric_limits<uint64_t>::max()` if
every entry is empty. -/
def minimumAux : List (Nat × Roaring) → Nat
  | [] => 2 ^ 64 - 1
  | (k, r) :: rest =>
    if r.isEmpty then minimumAux rest else uniteBytes k r.minimum

/-- `minimum()` from roaring64map.hh. -/
def minimum (m : Roaring64Map) : Nat := minimumAux m.roarings

/-- `getCopyOnWrite()` from roaring64map.hh. -/
def getCopyOnWrite (m : Roaring64Map) : Bool := m.copyOnWrite

/-- `swap(Roaring64Map&)` from roaring64map.hh: `roarings.swap(r.roarings)` —
only the outer maps are exchanged; each object keeps its own `copyOnWrite`
flag.  Modelled functionally: the result pair is (new this, new r). -/
def swap (a r : Roaring64Map) : Roaring64Map × Roaring64Map :=
  (⟨r.roarings, a.copyOnWrite⟩, ⟨a.roarings, r.copyOnWrite⟩)

/-- The loop of `operator==` from roaring64map.hh: advance both iterators
past entries with empty inner bitmaps; if both reach the end the maps are
equal; if only one does they are unequal; otherwise compare the two
(key, inner bitmap) pairs and continue. -/
def beqAux : List (Nat × Roaring) → List (Nat × Roaring) → Bool
  | (ka, ra) :: resta, b =>
    if ra.isEmpty then beqAux resta b
    else
      match b with
      | [] => false
      | (kb, rb) :: restb =>
        if rb.isEmpty then beqAux ((ka, ra) :: resta) restb
        else decide (ka = kb) && decide (ra = rb) && beqAux resta restb
  | [], b => b.all (fun e => e.2.isEmpty)
termination_by a b => a.length + b.length

/-- `operator==` from roaring64map.hh. -/
def beq (a b : Roaring64Map) : Bool := beqAux a.roarings b.roarings

/-- The entries of the outer map whose inner bitmap is non-empty, in order:
what `operator==` actually compares. -/
def nonEmpties (l : List (Nat × Roaring)) : List (Nat × Roaring) :=
  l.filter (fun e => !e.2.isEmpty)

/-- The walk of `rank(x)` from roaring64map.hh over the sorted outer map:
sum the cardinalities of all entries with key < highBytes(x) (the entries
from `begin()` to `lower_bound(highBytes(x))`), then add the inner rank of
lowBytes(x) if an entry with key = highBytes(x) exists. -/
def rankAux (h low : Nat) : List (Nat × Roaring) → Nat
  | [] => 0
  | (k, r) :: rest =>
    if k < h then r.cardinality + rankAux h low rest
    else if k = h then r.rank low
    else 0

/-- `rank(uint64_t x)` from roaring64map.hh: the number of integers in the
bitmap that are smaller or equal to x. -/
def rank (m : Roaring64Map) (x : Nat) : Nat :=
  rankAux (highBytes x) (lowBytes x) m.roarings

/-- The walk of `select` from roaring64map.hh: subtract each inner
cardinality from the target rank until it falls inside one entry, then
select within that entry.  Note the `(uint32_t)rank` cast on the inner
call. -/
def selectAux : List (Nat × Roaring) → Nat → Option Nat
  | [], _ => none
  | (k, r) :: rest, rk =>
    if rk < r.cardinality then
      match r.select (rk % 2 ^ 32) with
      | some low => some (uniteBytes k low)
      | none => none
    else selectAux rest (rk - r.cardinality)

/-- `select(uint64_t rank, uint64_t *element)` from roaring64map.hh; `none`
models a `false` return (with `*element` unspecified). -/
def select (m : Roaring64Map) (rk : Nat) : Option Nat :=
  selectAux m.roarings rk

/-- `cardinality_nothrow()` from roaring64map.hh: sum the inner
cardinalities in a uint64 accumulator (wrapping mod 2^64) while checking
whether every inner bitmap has the maximal cardinality 2^32; return
{0, true} exactly when the outer map has 2^32 entries, all of maximal
cardinality, and {sum, false} otherwise. -/
def cardinality_nothrow (m : Roaring64Map) : Nat × Bool :=
  let maxCardinality : Nat := 2 ^ 32
  let result :=
    m.roarings.foldl (fun acc e => (acc + e.2.cardinality) % 2 ^ 64) 0
  let allBitmapsAreMaxCardinality :=
    m.roarings.all (fun e => e.2.cardinality == maxCardinality)
  if m.roarings.length == maxCardinality && allBitmapsAreMaxCardinality then
    (0, true)
  else (result, false)

/-- `cardinality()` from roaring64map.hh: delegates to
`cardinality_nothrow`; `none` models the std::length_error (or termination)
raised on the completely full bitmap. -/
def cardinality (m : Roaring64Map) : Option Nat :=
  let result := cardinality_nothrow m
  if result.2 then none else some result.1

/-- `isFull()` from roaring64map.hh. -/
def isFull (m : Roaring64Map) : Bool := (cardinality_nothrow m).2

/-- The 64-bit values of an entry list, enumerated entry by entry. -/
def enumL (l : List (Nat × Roaring)) : List Nat :=
  l.flatMap (fun e => e.2.vals.map (uniteBytes e.1))

/-- All 64-bit values contained in the map, enumerated entry by entry; its
length is the number of contained values. -/
def enumVals (m : Roaring64Map) : List Nat := enumL m.roarings

/-- The contained 64-bit values as a Finset: the specification-side "set of
contained values". -/
def containedSet (m : Roaring64Map) : Finset Nat :=
  (Finset.range (2 ^ 64)).filter (fun v => m.contains v = true)

/-- The first loop of `isSubset(other, requireStrict)` from roaring64map.hh:
walk self's entries, skipping empty inner bitmaps; return `none` (early
`return false`) when `other` lacks the key or the inner bitmaps fail the
subset test; otherwise thread the `someBitmapIsStrictSubset` flag, setting
it when `requireStrict` and the two inner cardinalities differ. -/
def subsetLoop (otherL : List (Nat × Roaring)) (requireStrict : Bool) :
    List (Nat × Roaring) → Bool → Option Bool
  | [], flag => some flag
  | (k, r) :: rest, flag =>
    if r.isEmpty then subsetLoop otherL requireStrict rest flag
    else
      match findKey otherL k with
      | none => none
      | some ro =>
        if r.isSubset ro then
          subsetLoop otherL requireStrict rest
            (flag || (requireStrict && !(r.cardinality == ro.cardinality)))
        else none

/-- The second loop of `isSubset` (condition (b)): `other` has a non-empty
entry whose key is absent from self or maps to an empty inner bitmap. -/
def subsetCondB (selfL : List (Nat × Roaring)) :
    List (Nat × Roaring) → Bool
  | [] => false
  | (k, ro) :: rest =>
    if ro.isEmpty then subsetCondB selfL rest
    else
      match findKey selfL k with
      | none => true
      | some r => if r.isEmpty then true else subsetCondB selfL rest

/-- `isSubset(const Roaring64Map&, bool requireStrict)` from
roaring64map.hh. -/
def isSubsetAux (m other : Roaring64Map) (requireStrict : Bool) : Bool :=
  match subsetLoop other.roarings requireStrict m.roarings false with
  | none => false
  | some flag =>
    if !requireStrict then true
    else if flag then true
    else subsetCondB m.roarings other.roarings

/-- `std::map::operator[]` followed by an in-place update of the entry:
`operator[]` default-constructs a missing entry at its sorted position,
then `f` is applied to the entry's inner bitmap (the inner
`setCopyOnWrite` call has no counterpart in the value model). -/
def mapApply (f : Roaring → Roaring) (k : Nat) :
    List (Nat × Roaring) → List (Nat × Roaring)
  | [] => [(k, f Roaring.empty)]
  | (k', r) :: rest =>
    if k < k' then (k, f Roaring.empty) :: (k', r) :: rest
    else if k' = k then (k', f r) :: rest
    else (k', r) :: mapApply f k rest

/-- The static helper `flipClosed(Roaring*, start, end)` from
roaring64map.hh: `bitmap->flip(start, uint64_t(end) + 1)`. -/
def innerFlipClosed (r : Roaring) (start e : Nat) : Roaring :=
  r.flip start (e + 1)

/-- `flipClosed(range_start, range_end)` from roaring64map.hh: negate the
bitmap on the closed 64-bit interval, splitting it into a head partial
flip, full flips of the intermediate outer keys, and a tail partial
flip. -/
def flipClosed (m : Roaring64Map) (range_start range_end : Nat) :
    Roaring64Map :=
  if range_start > range_end then m
  else
    let start_high := highBytes range_start
    let start_low := lowBytes range_start
    let end_high := highBytes range_end
    let end_low := lowBytes range_end
    let maxUint32 := 2 ^ 32 - 1
    if start_high = end_high then
      { m with roarings := (mapApply
          (fun r => innerFlipClosed r start_low end_low)
          start_high m.roarings) }
    else
      let l1 := mapApply (fun r => innerFlipClosed r start_low maxUint32)
        start_high m.roarings
      let l2 := (List.range' (start_high + 1)
          (end_high - (start_high + 1))).foldl
        (fun acc k =>
          mapApply (fun r => innerFlipClosed r 0 maxUint32) k acc) l1
      { m with roarings := (mapApply
          (fun r => innerFlipClosed r 0 end_low) end_high l2) }

/-- `isSubset(const Roaring64Map&)` from roaring64map.hh. -/
def isSubset (m other : Roaring64Map) : Bool := isSubsetAux m other false

/-- `isStrictSubset(const Roaring64Map&)` from roaring64map.hh. -/
def isStrictSubset (m other : Roaring64Map) : Bool :=
  isSubsetAux m other true

end Roaring64Map

/-! ## The bitset container kernels (src/containers/bitset.c, non-AVX)

`bitset_container_t` and `BITSET_CONTAINER_SIZE_IN_WORDS` are declared in
bitset.h, which is not part of this slice; per the spec a bitset container
is a "65536-bit bitmap stored as 1024 64-bit words, with cardinality". -/

/-- Modelled from the spec: the 1024-word size of a bitset container. -/
def BITSET_CONTAINER_SIZE_IN_WORDS : Nat := 1024

/-- Modelled from the spec: `bitset_container_t` — 1024 64-bit words plus a
signed cardinality counter (−1 is the "unknown" sentinel). -/
structure bitset_container_t where
  array : List Nat
  cardinality : Int
deriving DecidableEq

/-- `_mm_popcnt_u64`: the number of set bits of a word. -/
def popcnt_u64 : Nat → Nat
  | 0 => 0
  | n + 1 => (n + 1) % 2 + popcnt_u64 ((n + 1) / 2)
decreasing_by exact Nat.div_lt_self (Nat.succ_pos n) (by omega)

/-- The `for (k = 0; k < BITSET_CONTAINER_SIZE_IN_WORDS; k += 2)` loop of
the non-AVX `BITSET_CONTAINER_FN` cardinality-tracking variant: each round
writes two combined words and adds their popcounts to the counter. -/
def bcLoop (op : Nat → Nat → Nat) (a1 a2 : List Nat) (k : Nat) :
    List Nat × Nat :=
  if h : k < BITSET_CONTAINER_SIZE_IN_WORDS then
    let w1 := op (a1.getD k 0) (a2.getD k 0)
    let w2 := op (a1.getD (k + 1) 0) (a2.getD (k + 1) 0)
    let rest := bcLoop op a1 a2 (k + 2)
    (w1 :: w2 :: rest.1, popcnt_u64 w1 + popcnt_u64 w2 + rest.2)
  else ([], 0)
termination_by BITSET_CONTAINER_SIZE_IN_WORDS - k
decreasing_by rw [BITSET_CONTAINER_SIZE_IN_WORDS] at *; omega

/-- The `for (k = 0; k < BITSET_CONTAINER_SIZE_IN_WORDS; k++)` loop of the
`_nocard` variant: writes the combined words only. -/
def bcLoopNocard (op : Nat → Nat → Nat) (a1 a2 : List Nat) (k : Nat) :
    List Nat :=
  if h : k < BITSET_CONTAINER_SIZE_IN_WORDS then
    op (a1.getD k 0) (a2.getD k 0) :: bcLoopNocard op a1 a2 (k + 1)
  else []
termination_by BITSET_CONTAINER_SIZE_IN_WORDS - k
decreasing_by rw [BITSET_CONTAINER_SIZE_IN_WORDS] at *; omega

/-- `BITSET_CONTAINER_FN(opname, opsymbol, _)`, non-AVX branch,
cardinality-tracking variant: combine the words pairwise, sum the popcounts,
store the sum as the output cardinality. -/
def bitset_container_fn (op : Nat → Nat → Nat)
    (bitset1 bitset2 : bitset_container_t) : bitset_container_t :=
  let r := bcLoop op bitset1.array bitset2.array 0
  ⟨r.1, Int.ofNat r.2⟩

/-- `BITSET_CONTAINER_FN`, non-AVX branch, `_nocard` variant: combine the
words and set the output cardinality to −1. -/
def bitset_container_fn_nocard (op : Nat → Nat → Nat)
    (bitset1 bitset2 : bitset_container_t) : bitset_container_t :=
  ⟨bcLoopNocard op bitset1.array bitset2.array 0, -1⟩

/-- Bitwise complement of a 64-bit word (`~` on uint64). -/
def not64 (w : Nat) : Nat := w ^^^ (2 ^ 64 - 1)

/-- `BITSET_CONTAINER_FN(or, |, _mm256_or_si256)`. -/
def bitset_container_or : bitset_container_t → bitset_container_t →
    bitset_container_t := bitset_container_fn (fun a b => a ||| b)

/-- The `_nocard` variant of `or`. -/
def bitset_container_or_nocard : bitset_container_t → bitset_container_t →
    bitset_container_t := bitset_container_fn_nocard (fun a b => a ||| b)

/-- `BITSET_CONTAINER_FN(and, &, _mm256_and_si256)`. -/
def bitset_container_and : bitset_container_t → bitset_container_t →
    bitset_container_t := bitset_container_fn (fun a b => a &&& b)

/-- The `_nocard` variant of `and`. -/
def bitset_container_and_nocard : bitset_container_t → bitset_container_t →
    bitset_container_t := bitset_container_fn_nocard (fun a b => a &&& b)

/-- `BITSET_CONTAINER_FN(xor, ^, _mm256_xor_si256)`. -/
def bitset_container_xor : bitset_container_t → bitset_container_t →
    bitset_container_t := bitset_container_fn (fun a b => a ^^^ b)

/-- The `_nocard` variant of `xor`. -/
def bitset_container_xor_nocard : bitset_container_t → bitset_container_t →
    bitset_container_t := bitset_container_fn_nocard (fun a b => a ^^^ b)

/-- `BITSET_CONTAINER_FN(andnot, &~, _mm256_andnot_si256)`. -/
def bitset_container_andnot : bitset_container_t → bitset_container_t →
    bitset_container_t := bitset_container_fn (fun a b => a &&& not64 b)

/-- The `_nocard` variant of `andnot`. -/
def bitset_container_andnot_nocard : bitset_container_t →
    bitset_container_t → bitset_container_t :=
  bitset_container_fn_nocard (fun a b => a &&& not64 b)

/-- The word-level specification of a bitset binary op: the k-th output
word for every k < 1024. -/
def bitsetWordsSpec (op : Nat → Nat → Nat) (a1 a2 : List Nat) : List Nat :=
  (List.range BITSET_CONTAINER_SIZE_IN_WORDS).map
    (fun k => op (a1.getD k 0) (a2.getD k 0))

/-- A concrete 1024-word container used to evaluate the kernel theorems. -/
def bitsetTestA : bitset_container_t := ⟨List.replicate 1024 6, 2048⟩

/-- A second concrete 1024-word container. -/
def bitsetTestB : bitset_container_t := ⟨List.replicate 1024 3, 2048⟩

/-! ## Serialization (`write` / `read` from roaring64map.hh)

Byte buffers are modelled as `List Nat` (one entry per byte). -/

/-- `w` little-endian bytes of `n` (memcpy of a `w`-byte integer). -/
def encodeLE : Nat → Nat → List Nat
  | 0, _ => []
  | w + 1, n => n % 256 :: encodeLE w (n / 256)

/-- Recompose a little-endian byte run into a number. -/
def decodeLE : List Nat → Nat
  | [] => 0
  | b :: bs => b + 256 * decodeLE bs

/-- Modelled from the spec: the inner 32-bit `Roaring::write` (the 32-bit
implementation is not part of this repository). We model its byte run as a
little-endian 64-bit value count followed by each stored value as 4
little-endian bytes; the `portable` flag selects between two concrete
formats and is irrelevant to the round-trip contract, so the model ignores
it. -/
def Roaring.write (r : Roaring) (portable : Bool) : List Nat :=
  encodeLE 8 r.vals.length ++ r.vals.flatMap (encodeLE 4)

/-- Modelled from the spec: the inner `Roaring::getSizeInBytes` returns the
exact byte size of `write`'s output. -/
def Roaring.getSizeInBytes (r : Roaring) (portable : Bool) : Nat :=
  8 + 4 * r.vals.length

/-- Parse `n` 32-bit little-endian values from the front of a buffer. -/
def decodeList32 : Nat → List Nat → List Nat
  | 0, _ => []
  | n + 1, buf => decodeLE (buf.take 4) :: decodeList32 n (buf.drop 4)

/-- Modelled from the spec: the inner 32-bit `Roaring::read`, parsing
`Roaring::write` output back (ignores bytes past its own run). -/
def Roaring.read (buf : List Nat) (portable : Bool) : Roaring :=
  ⟨decodeList32 (decodeLE (buf.take 8)) (buf.drop 8)⟩

/-- `emplaceOrInsert` from roaring64map.hh: `std::map` insertion, which
keeps keys sorted and does nothing when the key is already present. -/
def Roaring64Map.emplaceOrInsert (key : Nat) (v : Roaring) :
    List (Nat × Roaring) → List (Nat × Roaring)
  | [] => [(key, v)]
  | (k, r) :: rest =>
    if key < k then (key, v) :: (k, r) :: rest
    else if key = k then (k, r) :: rest
    else (k, r) :: Roaring64Map.emplaceOrInsert key v rest

/-- `write` from roaring64map.hh: a 64-bit map size, then for each entry in
key order a 32-bit key followed by the inner bitmap's serialization. -/
def Roaring64Map.write (m : Roaring64Map) (portable : Bool) : List Nat :=
  encodeLE 8 m.roarings.length ++
    m.roarings.flatMap (fun e => encodeLE 4 e.1 ++ e.2.write portable)

/-- The `for (lcv = 0; lcv < map_size; lcv++)` loop of `read` from
roaring64map.hh: parse a key and an inner bitmap, advance the buffer by the
parsed bitmap's `getSizeInBytes`, and `emplaceOrInsert` the pair. -/
def Roaring64Map.readLoop (portable : Bool) : Nat → List Nat →
    List (Nat × Roaring) → List (Nat × Roaring)
  | 0, _, acc => acc
  | n + 1, buf, acc =>
    let key := decodeLE (buf.take 4)
    let rest := buf.drop 4
    let rv := Roaring.read rest portable
    Roaring64Map.readLoop portable n (rest.drop (rv.getSizeInBytes portable))
      (Roaring64Map.emplaceOrInsert key rv acc)

/-- `read` from roaring64map.hh: parse the 64-bit map size, then run the
entry loop starting from an empty (default-constructed) result. -/
def Roaring64Map.read (buf : List Nat) (portable : Bool) : Roaring64Map :=
  ⟨Roaring64Map.readLoop portable (decodeLE (buf.take 8)) (buf.drop 8) [],
    false⟩

/-! ## `operator|=` and `fastunion` from roaring64map.hh -/

/-- One step of `operator|=` for one entry of `other`: `std::map::insert`
(which keeps keys sorted and does not overwrite), then `|=` on the inner
bitmap when the key was already present. -/
def insertOrCombine (k : Nat) (rb : Roaring) :
    List (Nat × Roaring) → List (Nat × Roaring)
  | [] => [(k, rb)]
  | (k', r) :: rest =>
    if k < k' then (k, rb) :: (k', r) :: rest
    else if k = k' then (k', r.or rb) :: rest
    else (k', r) :: insertOrCombine k rb rest

/-- `operator|=` from roaring64map.hh: for each entry of `other` in key
order, insert it into self, unioning into the existing inner bitmap when
the key is already present. -/
def Roaring64Map.or64 (m other : Roaring64Map) : Roaring64Map :=
  { m with roarings := (other.roarings.foldl
      (fun acc e => insertOrCombine e.1 e.2 acc) m.roarings) }

/-- The left fold of pairwise union (`operator|`, which copies its left
operand and applies `operator|=`) over a list of maps, starting from a
default-constructed map. -/
def Roaring64Map.foldUnion (inputs : List Roaring64Map) : Roaring64Map :=
  inputs.foldl Roaring64Map.or64 ⟨[], false⟩

/-- Modelled from the spec: `roaring_bitmap_or_many` (part of the 32-bit C
library, not of this repository) computes the union of a list of 32-bit
bitmaps. -/
def orMany (l : List Roaring) : Roaring := l.foldl Roaring.or Roaring.empty

/-- The key visible to `fastunion`'s priority queue for one iterator:
none when the iterator is exhausted. -/
def headKeyList (l : List (Nat × Roaring)) : List Nat :=
  match l with
  | [] => []
  | e :: _ => [e.1]

/-- All keys visible to the priority queue. -/
def headKeys (ls : List (List (Nat × Roaring))) : List Nat :=
  ls.flatMap headKeyList

/-- One round's contribution of one iterator: its head inner bitmap when
its current key equals the target key. -/
def gatherOne (t : Nat) (l : List (Nat × Roaring)) : List Roaring :=
  match l with
  | (k, r) :: _ => if k = t then [r] else []
  | [] => []

/-- The inner bitmaps handed to `roaring_bitmap_or_many` in one round:
those at the head of an iterator whose current key is the target key. -/
def gatherTarget (t : Nat) (ls : List (List (Nat × Roaring))) :
    List Roaring :=
  ls.flatMap (gatherOne t)

/-- One round's advance of one iterator: move past the head entry when
its key equals the target key. -/
def advOne (t : Nat) (l : List (Nat × Roaring)) : List (Nat × Roaring) :=
  match l with
  | (k, _) :: rest => if k = t then rest else l
  | [] => []

/-- One round's advance of all iterators. -/
def advanceTarget (t : Nat) (ls : List (List (Nat × Roaring))) :
    List (List (Nat × Roaring)) :=
  ls.map (advOne t)

/-- The `while (!pq.empty())` loop of `fastunion` from roaring64map.hh:
take the smallest key among the iterators' current entries, union all
inner bitmaps at that key with `roaring_bitmap_or_many`, store the result
at that key, and advance the contributing iterators. Keys are produced in
strictly increasing order, so storing via `operator[]` appends. -/
def fastunionGo (ls : List (List (Nat × Roaring))) :
    List (Nat × Roaring) :=
  match h : (headKeys ls).min? with
  | none => []
  | some t => (t, orMany (gatherTarget t ls)) ::
      fastunionGo (advanceTarget t ls)
termination_by (ls.map List.length).sum
decreasing_by
  have hmem : t ∈ headKeys ls :=
    ((List.min?_eq_some_iff (fun x => le_refl x)
      (fun x y => min_choice x y) (fun _ _ _ => le_min_iff)).1 h).1
  obtain ⟨l0, hl0, ht0⟩ := List.mem_flatMap.1 hmem
  rw [advanceTarget, List.map_map]
  refine List.sum_lt_sum _ _ (fun l _ => ?_) ⟨l0, hl0, ?_⟩
  · cases l with
    | nil => exact le_refl _
    | cons e rest =>
      obtain ⟨k, r⟩ := e
      simp only [Function.comp_apply, advOne]
      split
      · exact Nat.le_succ _
      · exact le_refl _
  · cases l0 with
    | nil => simp [headKeyList] at ht0
    | cons e rest =>
      obtain ⟨k, r⟩ := e
      have hk : k = t := by
        simp only [headKeyList, List.mem_singleton] at ht0
        exact ht0.symm
      simp only [Function.comp_apply, advOne, if_pos hk]
      exact Nat.lt_succ_self _

/-- `fastunion` from roaring64map.hh: run the priority-queue merge over
the entry lists of all inputs, starting from a default-constructed
result. -/
def Roaring64Map.fastunion (inputs : List Roaring64Map) : Roaring64Map :=
  ⟨fastunionGo (inputs.map Roaring64Map.roarings), false⟩

/-! # Theorems -/

theorem two_pow_32 : (2 : Nat) ^ 32 = 4294967296 := by norm_num

theorem two_pow_64 : (2 : Nat) ^ 64 = 18446744073709551616 := by norm_num

theorem highBytes_def (x : Nat) : highBytes x = (x / 2 ^ 32) % 2 ^ 32 := by
  rw [highBytes, Nat.shiftRight_eq_div_pow]

theorem uniteBytes_eq (h l : Nat) (hl : l < 2 ^ 32) :
    uniteBytes h l = 2 ^ 32 * h + l := by
  rw [uniteBytes, Nat.shiftLeft_eq, Nat.mul_comm, ← Nat.mul_add_lt_is_or hl]

theorem highBytes_uniteBytes (h l : Nat) (hh : h < 2 ^ 32) (hl : l < 2 ^ 32) :
    highBytes (uniteBytes h l) = h := by
  rw [uniteBytes_eq h l hl, highBytes_def]
  rw [two_pow_32] at *
  omega

theorem lowBytes_uniteBytes (h l : Nat) (hl : l < 2 ^ 32) :
    lowBytes (uniteBytes h l) = l := by
  rw [uniteBytes_eq h l hl, lowBytes]
  rw [two_pow_32] at *
  omega

theorem uniteBytes_high_low (v : Nat) (hv : v < 2 ^ 64) :
    uniteBytes (highBytes v) (lowBytes v) = v := by
  have hlow : lowBytes v < 2 ^ 32 := Nat.mod_lt _ (by norm_num)
  rw [uniteBytes_eq _ _ hlow, highBytes_def, lowBytes]
  rw [two_pow_32] at *
  rw [two_pow_64] at hv
  omega

theorem uniteBytes_lt (h l : Nat) (hh : h < 2 ^ 32) (hl : l < 2 ^ 32) :
    uniteBytes h l < 2 ^ 64 := by
  rw [uniteBytes_eq h l hl, two_pow_64]
  rw [two_pow_32] at *
  omega

/-! ### Helper lemmas about strictly sorted lists -/

/-- Two strictly ascending lists with the same members are equal. -/
theorem sorted_eq_of_mem_iff {l1 l2 : List Nat} (h1 : l1.Sorted (· < ·))
    (h2 : l2.Sorted (· < ·)) (h : ∀ x, x ∈ l1 ↔ x ∈ l2) : l1 = l2 :=
  List.eq_of_perm_of_sorted
    ((List.perm_ext_iff_of_nodup h1.nodup h2.nodup).2 h) h1 h2

/-- A strictly ascending list of naturals below N has length at most N. -/
theorem sorted_length_le {l : List Nat} (h1 : l.Sorted (· < ·)) (N : Nat)
    (h2 : ∀ x ∈ l, x < N) : l.length ≤ N := by
  have hn : l.Nodup := h1.nodup
  calc l.length = l.toFinset.card := (List.toFinset_card_of_nodup hn).symm
  _ ≤ (Finset.range N).card := by
      apply Finset.card_le_card
      intro x hx
      rw [List.mem_toFinset] at hx
      exact Finset.mem_range.2 (h2 x hx)
  _ = N := Finset.card_range N

/-- A strictly ascending list of naturals below N with length N contains
every natural below N. -/
theorem sorted_full_mem {l : List Nat} (h1 : l.Sorted (· < ·)) (N : Nat)
    (h2 : ∀ x ∈ l, x < N) (h3 : l.length = N) : ∀ x < N, x ∈ l := by
  have hn : l.Nodup := h1.nodup
  have hsub : l.toFinset ⊆ Finset.range N := fun x hx =>
    Finset.mem_range.2 (h2 x (List.mem_toFinset.1 hx))
  have hcard : (Finset.range N).card ≤ l.toFinset.card := by
    rw [Finset.card_range, List.toFinset_card_of_nodup hn, h3]
  have heq : l.toFinset = Finset.range N :=
    Finset.eq_of_subset_of_card_le hsub hcard
  intro x hx
  have : x ∈ l.toFinset := heq ▸ Finset.mem_range.2 hx
  exact List.mem_toFinset.1 this

theorem mem_mergeOr (a : Nat) : ∀ l1 l2 : List Nat,
    a ∈ Roaring.mergeOr l1 l2 ↔ a ∈ l1 ∨ a ∈ l2 := by
  intro l1 l2
  induction l1, l2 using Roaring.mergeOr.induct with
  | case1 ys => simp [Roaring.mergeOr]
  | case2 x xs => simp [Roaring.mergeOr]
  | case3 x xs y ys hlt ih => simp [Roaring.mergeOr, hlt, ih]; tauto
  | case4 x xs y ys hlt hgt ih => simp [Roaring.mergeOr, hlt, hgt, ih]; tauto
  | case5 x xs y ys hlt hgt ih =>
    have hxy : x = y := by omega
    simp [Roaring.mergeOr, hlt, hgt, ih, hxy]; tauto

theorem sorted_mergeOr : ∀ l1 l2 : List Nat, l1.Sorted (· < ·) →
    l2.Sorted (· < ·) → (Roaring.mergeOr l1 l2).Sorted (· < ·) := by
  intro l1 l2
  induction l1, l2 using Roaring.mergeOr.induct with
  | case1 ys => intro _ h2; simpa [Roaring.mergeOr]
  | case2 x xs =>
    intro h1 _
    rw [show Roaring.mergeOr (x :: xs) [] = x :: xs by rw [Roaring.mergeOr]]
    exact h1
  | case3 x xs y ys hlt ih =>
    intro h1 h2
    rw [List.sorted_cons] at h1
    rw [show Roaring.mergeOr (x :: xs) (y :: ys) =
        x :: Roaring.mergeOr xs (y :: ys) by rw [Roaring.mergeOr]; simp [hlt]]
    rw [List.sorted_cons]
    refine ⟨?_, ih h1.2 h2⟩
    intro b hb
    rcases (mem_mergeOr b xs (y :: ys)).1 hb with hbx | hby
    · exact h1.1 b hbx
    · rcases List.mem_cons.1 hby with rfl | hby'
      · exact hlt
      · exact Nat.lt_trans hlt ((List.sorted_cons.1 h2).1 b hby')
  | case4 x xs y ys hlt hgt ih =>
    intro h1 h2
    rw [List.sorted_cons] at h2
    rw [show Roaring.mergeOr (x :: xs) (y :: ys) =
        y :: Roaring.mergeOr (x :: xs) ys by rw [Roaring.mergeOr]; simp [hlt, hgt]]
    rw [List.sorted_cons]
    refine ⟨?_, ih h1 h2.2⟩
    intro b hb
    rcases (mem_mergeOr b (x :: xs) ys).1 hb with hbx | hby
    · rcases List.mem_cons.1 hbx with rfl | hbx'
      · exact hgt
      · exact Nat.lt_trans hgt ((List.sorted_cons.1 h1).1 b hbx')
    · exact h2.1 b hby
  | case5 x xs y ys hlt hgt ih =>
    intro h1 h2
    have hxy : x = y := by omega
    subst hxy
    rw [List.sorted_cons] at h1 h2
    rw [show Roaring.mergeOr (x :: xs) (x :: ys) =
        x :: Roaring.mergeOr xs ys by rw [Roaring.mergeOr]; simp]
    rw [List.sorted_cons]
    refine ⟨?_, ih h1.2 h2.2⟩
    intro b hb
    rcases (mem_mergeOr b xs ys).1 hb with hbx | hby
    · exact h1.1 b hbx
    · exact h2.1 b hby

theorem mem_mergeXor_sub (a : Nat) : ∀ l1 l2 : List Nat,
    a ∈ Roaring.mergeXor l1 l2 → a ∈ l1 ∨ a ∈ l2 := by
  intro l1 l2
  induction l1, l2 using Roaring.mergeXor.induct with
  | case1 ys => simp [Roaring.mergeXor]
  | case2 x xs => simp [Roaring.mergeXor]
  | case3 x xs y ys hlt ih => simp [Roaring.mergeXor, hlt] at *; tauto
  | case4 x xs y ys hlt hgt ih => simp [Roaring.mergeXor, hlt, hgt] at *; tauto
  | case5 x xs y ys hlt hgt ih => simp [Roaring.mergeXor, hlt, hgt] at *; tauto

theorem sorted_mergeXor : ∀ l1 l2 : List Nat, l1.Sorted (· < ·) →
    l2.Sorted (· < ·) → (Roaring.mergeXor l1 l2).Sorted (· < ·) := by
  intro l1 l2
  induction l1, l2 using Roaring.mergeXor.induct with
  | case1 ys => intro _ h2; simpa [Roaring.mergeXor]
  | case2 x xs =>
    intro h1 _
    rw [show Roaring.mergeXor (x :: xs) [] = x :: xs by rw [Roaring.mergeXor]]
    exact h1
  | case3 x xs y ys hlt ih =>
    intro h1 h2
    rw [List.sorted_cons] at h1
    rw [show Roaring.mergeXor (x :: xs) (y :: ys) =
        x :: Roaring.mergeXor xs (y :: ys) by rw [Roaring.mergeXor]; simp [hlt]]
    rw [List.sorted_cons]
    refine ⟨?_, ih h1.2 h2⟩
    intro b hb
    rcases mem_mergeXor_sub b xs (y :: ys) hb with hbx | hby
    · exact h1.1 b hbx
    · rcases List.mem_cons.1 hby with rfl | hby'
      · exact hlt
      · exact Nat.lt_trans hlt ((List.sorted_cons.1 h2).1 b hby')
  | case4 x xs y ys hlt hgt ih =>
    intro h1 h2
    rw [List.sorted_cons] at h2
    rw [show Roaring.mergeXor (x :: xs) (y :: ys) =
        y :: Roaring.mergeXor (x :: xs) ys by rw [Roaring.mergeXor]; simp [hlt, hgt]]
    rw [List.sorted_cons]
    refine ⟨?_, ih h1 h2.2⟩
    intro b hb
    rcases mem_mergeXor_sub b (x :: xs) ys hb with hbx | hby
    · rcases List.mem_cons.1 hbx with rfl | hbx'
      · exact hgt
      · exact Nat.lt_trans hgt ((List.sorted_cons.1 h1).1 b hbx')
    · exact h2.1 b hby
  | case5 x xs y ys hlt hgt ih =>
    intro h1 h2
    rw [show Roaring.mergeXor (x :: xs) (y :: ys) =
        Roaring.mergeXor xs ys by rw [Roaring.mergeXor]; simp [hlt, hgt]]
    exact ih ((List.sorted_cons.1 h1).2) ((List.sorted_cons.1 h2).2)

theorem mem_mergeXor (a : Nat) : ∀ l1 l2 : List Nat, l1.Sorted (· < ·) →
    l2.Sorted (· < ·) →
    (a ∈ Roaring.mergeXor l1 l2 ↔ ((a ∈ l1 ∧ a ∉ l2) ∨ (a ∈ l2 ∧ a ∉ l1))) := by
  intro l1 l2
  induction l1, l2 using Roaring.mergeXor.induct with
  | case1 ys => intro _ _; simp [Roaring.mergeXor]
  | case2 x xs => intro _ _; simp [Roaring.mergeXor]
  | case3 x xs y ys hlt ih =>
    intro h1 h2
    have hys : ∀ b ∈ ys, y < b := (List.sorted_cons.1 h2).1
    have f2 : a = x → ¬ a ∈ y :: ys := by
      rintro rfl h
      rcases List.mem_cons.1 h with rfl | h'
      · exact absurd hlt (lt_irrefl a)
      · exact absurd (Nat.lt_trans hlt (hys a h')) (lt_irrefl a)
    rw [show Roaring.mergeXor (x :: xs) (y :: ys) =
        x :: Roaring.mergeXor xs (y :: ys) by rw [Roaring.mergeXor]; simp [hlt]]
    rw [List.mem_cons, ih (List.sorted_cons.1 h1).2 h2]
    constructor
    · rintro (rfl | ⟨hb, hc⟩ | ⟨hc, hb⟩)
      · exact Or.inl ⟨List.mem_cons.2 (Or.inl rfl), f2 rfl⟩
      · exact Or.inl ⟨List.mem_cons.2 (Or.inr hb), hc⟩
      · refine Or.inr ⟨hc, ?_⟩
        intro hmem
        rcases List.mem_cons.1 hmem with rfl | h'
        · exact f2 rfl hc
        · exact hb h'
    · rintro (⟨hb, hc⟩ | ⟨hc, hb⟩)
      · rcases List.mem_cons.1 hb with rfl | h'
        · exact Or.inl rfl
        · exact Or.inr (Or.inl ⟨h', hc⟩)
      · exact Or.inr (Or.inr ⟨hc, fun h => hb (List.mem_cons.2 (Or.inr h))⟩)
  | case4 x xs y ys hlt hgt ih =>
    intro h1 h2
    have hxs : ∀ b ∈ xs, x < b := (List.sorted_cons.1 h1).1
    have f2 : a = y → ¬ a ∈ x :: xs := by
      rintro rfl h
      rcases List.mem_cons.1 h with rfl | h'
      · exact absurd hgt (lt_irrefl a)
      · exact absurd (Nat.lt_trans hgt (hxs a h')) (lt_irrefl a)
    rw [show Roaring.mergeXor (x :: xs) (y :: ys) =
        y :: Roaring.mergeXor (x :: xs) ys by rw [Roaring.mergeXor]; simp [hlt, hgt]]
    rw [List.mem_cons, ih h1 (List.sorted_cons.1 h2).2]
    constructor
    · rintro (rfl | ⟨hb, hc⟩ | ⟨hc, hb⟩)
      · exact Or.inr ⟨List.mem_cons.2 (Or.inl rfl), f2 rfl⟩
      · refine Or.inl ⟨hb, ?_⟩
        intro hmem
        rcases List.mem_cons.1 hmem with rfl | h'
        · exact f2 rfl hb
        · exact hc h'
      · exact Or.inr ⟨List.mem_cons.2 (Or.inr hc), hb⟩
    · rintro (⟨hb, hc⟩ | ⟨hc, hb⟩)
      · exact Or.inr (Or.inl ⟨hb, fun h => hc (List.mem_cons.2 (Or.inr h))⟩)
      · rcases List.mem_cons.1 hc with rfl | h'
        · exact Or.inl rfl
        · exact Or.inr (Or.inr ⟨h', hb⟩)
  | case5 x xs y ys hlt hgt ih =>
    intro h1 h2
    have hxy : x = y := by omega
    subst hxy
    have hxs : ∀ b ∈ xs, x < b := (List.sorted_cons.1 h1).1
    have hys : ∀ b ∈ ys, x < b := (List.sorted_cons.1 h2).1
    have f1 : a = x → ¬ a ∈ xs := by
      rintro rfl h; exact absurd (hxs a h) (lt_irrefl a)
    have f2 : a = x → ¬ a ∈ ys := by
      rintro rfl h; exact absurd (hys a h) (lt_irrefl a)
    rw [show Roaring.mergeXor (x :: xs) (x :: ys) =
        Roaring.mergeXor xs ys by rw [Roaring.mergeXor]; simp]
    rw [ih (List.sorted_cons.1 h1).2 (List.sorted_cons.1 h2).2]
    constructor
    · rintro (⟨hb, hc⟩ | ⟨hc, hb⟩)
      · refine Or.inl ⟨List.mem_cons.2 (Or.inr hb), ?_⟩
        intro hmem
        rcases List.mem_cons.1 hmem with rfl | h'
        · exact f1 rfl hb
        · exact hc h'
      · refine Or.inr ⟨List.mem_cons.2 (Or.inr hc), ?_⟩
        intro hmem
        rcases List.mem_cons.1 hmem with rfl | h'
        · exact f2 rfl hc
        · exact hb h'
    · rintro (⟨hb, hc⟩ | ⟨hc, hb⟩)
      · rcases List.mem_cons.1 hb with rfl | h'
        · exact absurd (List.mem_cons.2 (Or.inl rfl)) hc
        · exact Or.inl ⟨h', fun h => hc (List.mem_cons.2 (Or.inr h))⟩
      · rcases List.mem_cons.1 hc with rfl | h'
        · exact absurd (List.mem_cons.2 (Or.inl rfl)) hb
        · exact Or.inr ⟨h', fun h => hb (List.mem_cons.2 (Or.inr h))⟩

/-- In a strictly ascending list, the element of a member x is found at index
(number of elements ≤ x) − 1. -/
theorem sorted_getElem_countP {l : List Nat} (h1 : l.Sorted (· < ·)) {x : Nat}
    (hx : x ∈ l) : l[(l.countP (fun y => decide (y ≤ x))) - 1]? = some x := by
  induction l with
  | nil => cases hx
  | cons a t ih =>
    rw [List.sorted_cons] at h1
    obtain ⟨ha, ht⟩ := h1
    rcases List.mem_cons.1 hx with rfl | hmem
    · have hcount : t.countP (fun y => decide (y ≤ x)) = 0 := by
        rw [List.countP_eq_zero]
        intro y hy
        simp only [decide_eq_true_eq]
        exact Nat.not_le.2 (ha y hy)
      rw [List.countP_cons_of_pos _ _ (by simp)]
      rw [hcount]
      simp
    · have hax : a < x := ha x hmem
      have hcnt_pos : 0 < t.countP (fun y => decide (y ≤ x)) := by
        rw [List.countP_pos]
        exact ⟨x, hmem, by simp⟩
      rw [List.countP_cons_of_pos _ _ (by simp [Nat.le_of_lt hax])]
      have heq : t.countP (fun y => decide (y ≤ x)) + 1 - 1 =
          (t.countP (fun y => decide (y ≤ x)) - 1) + 1 := by omega
      rw [heq, List.getElem?_cons_succ]
      exact ih ht hmem


theorem list_contains_iff (l : List Nat) (a : Nat) :
    (l.contains a = true) ↔ a ∈ l := by simp

/-! ### Basic facts about the outer map walk -/

theorem findKey_eq_none {l : List (Nat × Roaring)} {h : Nat}
    (hne : ∀ e ∈ l, e.1 ≠ h) : Roaring64Map.findKey l h = none := by
  induction l with
  | nil => rfl
  | cons e rest ih =>
    obtain ⟨k, r⟩ := e
    rw [Roaring64Map.findKey]
    rw [if_neg (hne (k, r) (List.mem_cons.2 (Or.inl rfl)))]
    exact ih (fun e he => hne e (List.mem_cons.2 (Or.inr he)))

theorem sorted_keys_cons {k : Nat} {r : Roaring} {rest : List (Nat × Roaring)}
    (h : (((k, r) :: rest).map Prod.fst).Sorted (· < ·)) :
    (∀ e ∈ rest, k < e.1) ∧ (rest.map Prod.fst).Sorted (· < ·) := by
  rw [List.map_cons, List.sorted_cons] at h
  exact ⟨fun e he => h.1 e.1 (List.mem_map_of_mem Prod.fst he), h.2⟩

/-! ### C1: minimum / maximum on the empty bitmap -/

theorem maximumAux_all_empty {l : List (Nat × Roaring)}
    (h : ∀ e ∈ l, e.2.isEmpty = true) : Roaring64Map.maximumAux l = 0 := by
  induction l with
  | nil => rfl
  | cons e rest ih =>
    obtain ⟨k, r⟩ := e
    rw [Roaring64Map.maximumAux]
    rw [if_pos (h (k, r) (List.mem_cons.2 (Or.inl rfl)))]
    exact ih (fun e he => h e (List.mem_cons.2 (Or.inr he)))

theorem minimumAux_all_empty {l : List (Nat × Roaring)}
    (h : ∀ e ∈ l, e.2.isEmpty = true) :
    Roaring64Map.minimumAux l = 2 ^ 64 - 1 := by
  induction l with
  | nil => rfl
  | cons e rest ih =>
    obtain ⟨k, r⟩ := e
    rw [Roaring64Map.minimumAux]
    rw [if_pos (h (k, r) (List.mem_cons.2 (Or.inl rfl)))]
    exact ih (fun e he => h e (List.mem_cons.2 (Or.inr he)))

/-- C1 counterexample: on the empty `Roaring64Map`, `minimum()` returns
`std::numeric_limits<uint64_t>::max()` = 2^64 − 1 (as its own documentation
states), not 0, refuting the claim that both `minimum()` and `maximum()`
return 0 on every empty map. -/
theorem c1_counterexample :
    ¬ (Roaring64Map.minimum ⟨[], false⟩ = 0 ∧
       Roaring64Map.maximum ⟨[], false⟩ = 0) := by
  decide

/-- C1 (amended): for every empty `Roaring64Map` — one containing no values,
including one whose outer map holds only empty inner bitmaps — `maximum()`
returns 0 and `minimum()` returns 2^64 − 1. -/
theorem c1_empty_minimum_maximum (m : Roaring64Map) (h : m.isEmpty = true) :
    m.maximum = 0 ∧ m.minimum = 2 ^ 64 - 1 := by
  rw [Roaring64Map.isEmpty, List.all_eq_true] at h
  constructor
  · exact maximumAux_all_empty (fun e he => h e (List.mem_reverse.1 he))
  · exact minimumAux_all_empty h

/-- C1 witness: a map whose outer map holds a single empty inner bitmap. -/
theorem c1_empty_minimum_maximum_witness :
    Roaring64Map.isEmpty ⟨[(3, ⟨[]⟩)], false⟩ = true ∧
    (Roaring64Map.maximum ⟨[(3, ⟨[]⟩)], false⟩ = 0 ∧
     Roaring64Map.minimum ⟨[(3, ⟨[]⟩)], false⟩ = 2 ^ 64 - 1) :=
  ⟨by decide, c1_empty_minimum_maximum ⟨[(3, ⟨[]⟩)], false⟩ (by decide)⟩

/-! ### C10: swap exchanges contents but not the copy-on-write flags -/

/-- C10: `swap` exchanges only the element contents (the outer key-to-inner
bitmap maps); each object's copy-on-write flag stays with the object, so
after the swap both objects report the same `getCopyOnWrite()` values as
before. -/
theorem c10_swap_frame (a b : Roaring64Map) :
    ((Roaring64Map.swap a b).1.getCopyOnWrite = a.getCopyOnWrite ∧
     (Roaring64Map.swap a b).2.getCopyOnWrite = b.getCopyOnWrite) ∧
    ((Roaring64Map.swap a b).1.roarings = b.roarings ∧
     (Roaring64Map.swap a b).2.roarings = a.roarings) :=
  ⟨⟨rfl, rfl⟩, rfl, rfl⟩


/-! ### C2: select and rank -/

theorem foundContains_nil (h low : Nat) :
    Roaring64Map.foundContains [] h low = false := rfl

theorem foundContains_cons (k : Nat) (r : Roaring) (rest : List (Nat × Roaring))
    (h low : Nat) :
    Roaring64Map.foundContains ((k, r) :: rest) h low =
      if k = h then r.contains low else Roaring64Map.foundContains rest h low := by
  rw [Roaring64Map.foundContains, Roaring64Map.findKey]
  by_cases hkh : k = h
  · rw [if_pos hkh, if_pos hkh]
  · rw [if_neg hkh, if_neg hkh, Roaring64Map.foundContains]

theorem foundContains_eq_false {l : List (Nat × Roaring)} {h : Nat}
    (low : Nat) (hne : ∀ e ∈ l, e.1 ≠ h) :
    Roaring64Map.foundContains l h low = false := by
  rw [Roaring64Map.foundContains, findKey_eq_none hne]

theorem rankAux_pos {h low : Nat} : ∀ {l : List (Nat × Roaring)},
    (l.map Prod.fst).Sorted (· < ·) →
    Roaring64Map.foundContains l h low = true →
    1 ≤ Roaring64Map.rankAux h low l := by
  intro l
  induction l with
  | nil => intro _ hc; rw [foundContains_nil] at hc; exact absurd hc (by simp)
  | cons e rest ih =>
    obtain ⟨k, r⟩ := e
    intro hs hc
    obtain ⟨hks, hrs⟩ := sorted_keys_cons hs
    rw [foundContains_cons] at hc
    rw [Roaring64Map.rankAux]
    by_cases hkh : k = h
    · rw [if_pos hkh] at hc
      rw [if_neg (by omega), if_pos hkh]
      rw [Roaring.contains, list_contains_iff] at hc
      rw [Roaring.rank]
      exact (List.countP_pos_iff).2 ⟨low, hc, by simp⟩
    · rw [if_neg hkh] at hc
      by_cases hlt : k < h
      · rw [if_pos hlt]
        have := ih hrs hc
        omega
      · -- k > h: every key in rest exceeds k > h, so findKey fails,
        -- contradicting hc.
        rw [foundContains_eq_false low
          (fun e he => by have := hks e he; omega)] at hc
        exact absurd hc (by simp)
theorem selectAux_rankAux {h low : Nat} (hlow : low < 2 ^ 32) :
    ∀ {l : List (Nat × Roaring)},
    (l.map Prod.fst).Sorted (· < ·) →
    (∀ e ∈ l, e.2.WF) →
    Roaring64Map.foundContains l h low = true →
    Roaring64Map.selectAux l (Roaring64Map.rankAux h low l - 1) =
      some (uniteBytes h low) := by
  intro l
  induction l with
  | nil => intro _ _ hc; rw [foundContains_nil] at hc; exact absurd hc (by simp)
  | cons e rest ih =>
    obtain ⟨k, r⟩ := e
    intro hs hw hc
    obtain ⟨hks, hrs⟩ := sorted_keys_cons hs
    have hrWF : r.WF := hw (k, r) (List.mem_cons.2 (Or.inl rfl))
    rw [foundContains_cons] at hc
    by_cases hkh : k = h
    · subst hkh
      rw [if_pos rfl] at hc
      rw [Roaring.contains, list_contains_iff] at hc
      rw [Roaring64Map.rankAux, if_neg (lt_irrefl k), if_pos rfl]
      rw [Roaring64Map.selectAux]
      have hcount_pos : 1 ≤ r.rank low :=
        (List.countP_pos_iff).2 ⟨low, hc, by simp⟩
      have hcount_le : r.rank low ≤ r.cardinality := List.countP_le_length _
      have hlen : r.vals.length ≤ 2 ^ 32 := sorted_length_le hrWF.1 _ hrWF.2
      have hlt_card : r.rank low - 1 < r.cardinality := by
        rw [Roaring.cardinality] at *
        omega
      rw [if_pos hlt_card]
      have hmod : (r.rank low - 1) % 2 ^ 32 = r.rank low - 1 :=
        Nat.mod_eq_of_lt (by rw [Roaring.cardinality] at hlt_card; omega)
      have hsel : r.select (r.rank low - 1) = some low := by
        rw [Roaring.select, Roaring.rank]
        exact sorted_getElem_countP hrWF.1 hc
      rw [hmod, hsel]
    · rw [if_neg hkh] at hc
      by_cases hlt : k < h
      · rw [Roaring64Map.rankAux, if_pos hlt]
        rw [Roaring64Map.selectAux]
        have hpos := rankAux_pos hrs hc
        rw [if_neg (by omega)]
        have harg : r.cardinality + Roaring64Map.rankAux h low rest - 1 -
            r.cardinality = Roaring64Map.rankAux h low rest - 1 := by omega
        rw [harg]
        exact ih hrs (fun e he => hw e (List.mem_cons.2 (Or.inr he))) hc
      · rw [foundContains_eq_false low
          (fun e he => by have := hks e he; omega)] at hc
        exact absurd hc (by simp)

/-- C2 counterexample: in the bitmap A = {5}, `rank(5)` = 1 (rank counts
values ≤ v) but `select(1)` returns false (`select` is 0-based), so
`select(rank(v), &out)` does not return v although v ∈ A. -/
theorem c2_counterexample :
    Roaring64Map.contains ⟨[(0, ⟨[5]⟩)], false⟩ 5 = true ∧
    Roaring64Map.select ⟨[(0, ⟨[5]⟩)], false⟩
      (Roaring64Map.rank ⟨[(0, ⟨[5]⟩)], false⟩ 5) = none := by
  decide

/-- C2 (amended): for every well-formed Roaring64Map A and every 64-bit
value v contained in A, `select(rank(v) − 1, &out)` returns true and sets
out = v (rank is 1-based and select 0-based, so the rank must be shifted
by one). -/
theorem c2_select_rank_sub_one (m : Roaring64Map) (hm : m.WF) (v : Nat)
    (hv : v < 2 ^ 64) (hc : m.contains v = true) :
    m.select (m.rank v - 1) = some v := by
  have hlow : lowBytes v < 2 ^ 32 := Nat.mod_lt _ (by norm_num)
  rw [Roaring64Map.contains] at hc
  rw [Roaring64Map.select, Roaring64Map.rank]
  rw [selectAux_rankAux hlow hm.1 (fun e he => (hm.2 e he).2) hc]
  rw [uniteBytes_high_low v hv]

/-- C2 witness: the amended identity evaluated on the concrete bitmap {5}. -/
theorem c2_select_rank_sub_one_witness :
    (Roaring64Map.WF ⟨[(0, ⟨[5]⟩)], false⟩ ∧ (5 : Nat) < 2 ^ 64 ∧
     Roaring64Map.contains ⟨[(0, ⟨[5]⟩)], false⟩ 5 = true) ∧
    Roaring64Map.select ⟨[(0, ⟨[5]⟩)], false⟩
      (Roaring64Map.rank ⟨[(0, ⟨[5]⟩)], false⟩ 5 - 1) = some 5 :=
  ⟨⟨by decide, by decide, by decide⟩,
   c2_select_rank_sub_one ⟨[(0, ⟨[5]⟩)], false⟩ (by decide) 5 (by decide)
     (by decide)⟩

/-! ### C3: equality compares exactly the represented sets -/

theorem nonEmpties_nil : Roaring64Map.nonEmpties [] = [] := rfl

theorem nonEmpties_cons_empty {k : Nat} {r : Roaring}
    (l : List (Nat × Roaring)) (h : r.isEmpty = true) :
    Roaring64Map.nonEmpties ((k, r) :: l) = Roaring64Map.nonEmpties l := by
  rw [Roaring64Map.nonEmpties, List.filter_cons, if_neg (by simp [h])]
  rfl

theorem nonEmpties_cons_nonempty {k : Nat} {r : Roaring}
    (l : List (Nat × Roaring)) (h : ¬ r.isEmpty = true) :
    Roaring64Map.nonEmpties ((k, r) :: l) =
      (k, r) :: Roaring64Map.nonEmpties l := by
  rw [Roaring64Map.nonEmpties, List.filter_cons, if_pos (by simp [h])]
  rfl

theorem beqAux_eq : ∀ a b : List (Nat × Roaring),
    Roaring64Map.beqAux a b = true ↔
      Roaring64Map.nonEmpties a = Roaring64Map.nonEmpties b := by
  intro a b
  induction a, b using Roaring64Map.beqAux.induct with
  | case1 ka ra resta b hemp ih =>
    rw [show Roaring64Map.beqAux ((ka, ra) :: resta) b =
        Roaring64Map.beqAux resta b by
      rw [Roaring64Map.beqAux.eq_def]; simp [hemp]]
    rw [ih, nonEmpties_cons_empty _ hemp]
  | case2 ka ra resta hemp =>
    rw [show Roaring64Map.beqAux ((ka, ra) :: resta) [] = false by
      rw [Roaring64Map.beqAux.eq_def]; simp [hemp]]
    rw [nonEmpties_cons_nonempty _ hemp, nonEmpties_nil]
    simp
  | case3 ka ra resta hemp kb rb restb hbemp ih =>
    rw [show Roaring64Map.beqAux ((ka, ra) :: resta) ((kb, rb) :: restb) =
        Roaring64Map.beqAux ((ka, ra) :: resta) restb by
      rw [Roaring64Map.beqAux.eq_def]; simp [hemp, hbemp]]
    rw [ih, nonEmpties_cons_empty _ hbemp]
  | case4 ka ra resta hemp kb rb restb hbemp ih =>
    rw [show Roaring64Map.beqAux ((ka, ra) :: resta) ((kb, rb) :: restb) =
        (decide (ka = kb) && decide (ra = rb) &&
          Roaring64Map.beqAux resta restb) by
      rw [Roaring64Map.beqAux.eq_def]; simp [hemp, hbemp]]
    rw [nonEmpties_cons_nonempty _ hemp, nonEmpties_cons_nonempty _ hbemp]
    simp only [Bool.and_eq_true, decide_eq_true_eq, ih, List.cons.injEq,
      Prod.mk.injEq]
  | case5 b =>
    rw [show Roaring64Map.beqAux [] b = b.all (fun e => e.2.isEmpty) by
      rw [Roaring64Map.beqAux.eq_def]]
    rw [nonEmpties_nil, Roaring64Map.nonEmpties]
    rw [List.all_eq_true, Eq.comm, List.filter_eq_nil_iff]
    simp

theorem empty_contains_false {r : Roaring} (h : r.isEmpty = true) (low : Nat) :
    r.contains low = false := by
  rw [Roaring.isEmpty, List.isEmpty_iff] at h
  rw [Roaring.contains, h]
  rfl

/-- Looking up through the non-empty entries gives the same containment
answer as looking up through all entries, for a key-sorted map. -/
theorem foundContains_nonEmpties {h low : Nat} :
    ∀ {l : List (Nat × Roaring)}, (l.map Prod.fst).Sorted (· < ·) →
    Roaring64Map.foundContains l h low =
      Roaring64Map.foundContains (Roaring64Map.nonEmpties l) h low := by
  intro l
  induction l with
  | nil => intro _; rfl
  | cons e rest ih =>
    obtain ⟨k, r⟩ := e
    intro hs
    obtain ⟨hks, hrs⟩ := sorted_keys_cons hs
    rw [foundContains_cons]
    by_cases hemp : r.isEmpty = true
    · rw [nonEmpties_cons_empty _ hemp]
      by_cases hkh : k = h
      · subst hkh
        rw [if_pos rfl, empty_contains_false hemp]
        rw [foundContains_eq_false low (fun e he => by
          have := hks e (List.mem_of_mem_filter he); omega)]
      · rw [if_neg hkh, ih hrs]
    · rw [nonEmpties_cons_nonempty _ hemp, foundContains_cons]
      by_cases hkh : k = h
      · rw [if_pos hkh, if_pos hkh]
      · rw [if_neg hkh, if_neg hkh, ih hrs]

theorem nonempty_has_member {r : Roaring} (h : ¬ r.isEmpty = true) :
    ∃ low, low ∈ r.vals := by
  rw [Roaring.isEmpty] at h
  cases hv : r.vals with
  | nil => rw [hv] at h; simp at h
  | cons x xs => exact ⟨x, List.mem_cons.2 (Or.inl rfl)⟩

theorem contains_true_of_mem {r : Roaring} {x : Nat} (h : x ∈ r.vals) :
    r.contains x = true := by
  rw [Roaring.contains, list_contains_iff]
  exact h

/-- Two key-sorted association lists whose entries are all non-empty and
inner-sorted, and that agree on every (h, low) lookup, are equal. -/
theorem canon_ext : ∀ (A B : List (Nat × Roaring)),
    (A.map Prod.fst).Sorted (· < ·) → (B.map Prod.fst).Sorted (· < ·) →
    (∀ e ∈ A, ¬ e.2.isEmpty = true ∧ e.2.vals.Sorted (· < ·)) →
    (∀ e ∈ B, ¬ e.2.isEmpty = true ∧ e.2.vals.Sorted (· < ·)) →
    (∀ h low, Roaring64Map.foundContains A h low =
      Roaring64Map.foundContains B h low) →
    A = B := by
  intro A
  induction A with
  | nil =>
    intro B _ _ _ hBne hext
    cases B with
    | nil => rfl
    | cons e rest =>
      obtain ⟨k, r⟩ := e
      exfalso
      obtain ⟨hne, _⟩ := hBne (k, r) (List.mem_cons.2 (Or.inl rfl))
      obtain ⟨low, hlow⟩ := nonempty_has_member hne
      have h1 := hext k low
      rw [foundContains_nil, foundContains_cons, if_pos rfl,
        contains_true_of_mem hlow] at h1
      exact absurd h1 (by simp)
  | cons ea restA ih =>
    intro B hAs hBs hAne hBne hext
    obtain ⟨ka, ra⟩ := ea
    obtain ⟨hksA, hrsA⟩ := sorted_keys_cons hAs
    obtain ⟨hneA, hsortA⟩ := hAne (ka, ra) (List.mem_cons.2 (Or.inl rfl))
    obtain ⟨lowa, hlowa⟩ := nonempty_has_member hneA
    cases B with
    | nil =>
      exfalso
      have h1 := hext ka lowa
      rw [foundContains_nil, foundContains_cons, if_pos rfl,
        contains_true_of_mem hlowa] at h1
      exact absurd h1 (by simp)
    | cons eb restB =>
      obtain ⟨kb, rb⟩ := eb
      obtain ⟨hksB, hrsB⟩ := sorted_keys_cons hBs
      obtain ⟨hneB, hsortB⟩ := hBne (kb, rb) (List.mem_cons.2 (Or.inl rfl))
      obtain ⟨lowb, hlowb⟩ := nonempty_has_member hneB
      have hkeq : ka = kb := by
        by_contra hnekk
        rcases Nat.lt_or_ge ka kb with hlt | hge
        · have h1 := hext ka lowa
          rw [foundContains_cons, if_pos rfl, contains_true_of_mem hlowa] at h1
          rw [foundContains_cons, if_neg (by omega)] at h1
          rw [foundContains_eq_false lowa
            (fun e he => by have := hksB e he; omega)] at h1
          exact absurd h1 (by simp)
        · have h1 := hext kb lowb
          rw [foundContains_cons (k := ka), if_neg (by omega)] at h1
          rw [foundContains_eq_false lowb
            (fun e he => by have := hksA e he; omega)] at h1
          rw [foundContains_cons, if_pos rfl, contains_true_of_mem hlowb] at h1
          exact absurd h1 (by simp)
      subst hkeq
      have hreq : ra = rb := by
        have hmem : ∀ x, x ∈ ra.vals ↔ x ∈ rb.vals := by
          intro x
          have h1 := hext ka x
          rw [foundContains_cons, if_pos rfl, foundContains_cons,
            if_pos rfl] at h1
          constructor
          · intro hx
            rw [contains_true_of_mem hx] at h1
            rw [Roaring.contains] at h1
            exact (list_contains_iff _ _).1 h1.symm
          · intro hx
            rw [contains_true_of_mem hx] at h1
            rw [Roaring.contains] at h1
            exact (list_contains_iff _ _).1 h1
        have hv := sorted_eq_of_mem_iff hsortA hsortB hmem
        cases ra
        cases rb
        simpa using hv
      subst hreq
      have hext' : ∀ h low, Roaring64Map.foundContains restA h low =
          Roaring64Map.foundContains restB h low := by
        intro h low
        by_cases hkh : ka = h
        · rw [foundContains_eq_false low
            (fun e he => by have := hksA e he; omega)]
          rw [foundContains_eq_false low
            (fun e he => by have := hksB e he; omega)]
        · have h1 := hext h low
          rw [foundContains_cons, if_neg hkh, foundContains_cons,
            if_neg hkh] at h1
          exact h1
      rw [ih restB hrsA hrsB
        (fun e he => hAne e (List.mem_cons.2 (Or.inr he)))
        (fun e he => hBne e (List.mem_cons.2 (Or.inr he))) hext']

theorem foundContains_big_low {h low : Nat} (hge : 2 ^ 32 ≤ low) :
    ∀ {l : List (Nat × Roaring)},
    (∀ e ∈ l, ∀ x ∈ e.2.vals, x < 2 ^ 32) →
    Roaring64Map.foundContains l h low = false := by
  intro l
  induction l with
  | nil => intro _; rfl
  | cons e rest ih =>
    obtain ⟨k, r⟩ := e
    intro hb
    rw [foundContains_cons]
    by_cases hkh : k = h
    · rw [if_pos hkh]
      rw [Roaring.contains]
      rw [Bool.eq_false_iff]
      intro hc
      have := (list_contains_iff _ _).1 hc
      have := hb (k, r) (List.mem_cons.2 (Or.inl rfl)) low this
      omega
    · rw [if_neg hkh]
      exact ih (fun e he => hb e (List.mem_cons.2 (Or.inr he)))

theorem nonEmpties_keys_sorted {l : List (Nat × Roaring)}
    (h : (l.map Prod.fst).Sorted (· < ·)) :
    ((Roaring64Map.nonEmpties l).map Prod.fst).Sorted (· < ·) :=
  List.Pairwise.sublist (List.Sublist.map Prod.fst (List.filter_sublist l)) h

theorem mem_nonEmpties {l : List (Nat × Roaring)} {e : Nat × Roaring}
    (h : e ∈ Roaring64Map.nonEmpties l) :
    e ∈ l ∧ ¬ e.2.isEmpty = true := by
  rw [Roaring64Map.nonEmpties, List.mem_filter] at h
  exact ⟨h.1, by simpa using h.2⟩

/-- `operator==` decides extensional equality of the contained value sets,
for well-formed maps. -/
theorem beq_iff_contains_ext (A B : Roaring64Map) (hA : A.WF) (hB : B.WF) :
    (A.beq B = true) ↔ ∀ v < 2 ^ 64, A.contains v = B.contains v := by
  rw [Roaring64Map.beq, beqAux_eq]
  constructor
  · intro hne v hv
    rw [Roaring64Map.contains, Roaring64Map.contains,
      foundContains_nonEmpties hA.1, foundContains_nonEmpties hB.1, hne]
  · intro hcont
    apply canon_ext _ _ (nonEmpties_keys_sorted hA.1)
      (nonEmpties_keys_sorted hB.1)
    · intro e he
      obtain ⟨hmem, hne⟩ := mem_nonEmpties he
      exact ⟨hne, ((hA.2 e hmem).2).1⟩
    · intro e he
      obtain ⟨hmem, hne⟩ := mem_nonEmpties he
      exact ⟨hne, ((hB.2 e hmem).2).1⟩
    · intro h low
      by_cases hh : h < 2 ^ 32
      · by_cases hlow : low < 2 ^ 32
        · have hv : uniteBytes h low < 2 ^ 64 := uniteBytes_lt h low hh hlow
          have hc := hcont (uniteBytes h low) hv
          rw [Roaring64Map.contains, Roaring64Map.contains,
            highBytes_uniteBytes h low hh hlow,
            lowBytes_uniteBytes h low hlow,
            foundContains_nonEmpties hA.1,
            foundContains_nonEmpties hB.1] at hc
          exact hc
        · rw [foundContains_big_low (by omega) (fun e he x hx =>
            ((hA.2 e (mem_nonEmpties he).1).2).2 x hx)]
          rw [foundContains_big_low (by omega) (fun e he x hx =>
            ((hB.2 e (mem_nonEmpties he).1).2).2 x hx)]
      · rw [foundContains_eq_false low (fun e he => by
          have := (hA.2 e (mem_nonEmpties he).1).1; omega)]
        rw [foundContains_eq_false low (fun e he => by
          have := (hB.2 e (mem_nonEmpties he).1).1; omega)]

/-- C3: for all Roaring64Maps A and B, `A == B` returns true if and only if
A and B contain exactly the same set of 64-bit values; outer entries whose
inner bitmap is empty on either side do not affect the result. -/
theorem c3_eq_iff_same_values (A B : Roaring64Map) (hA : A.WF) (hB : B.WF) :
    (A.beq B = true) ↔ ∀ v < 2 ^ 64, A.contains v = B.contains v :=
  beq_iff_contains_ext A B hA hB

/-- C3 witness: two concrete maps with the same values but different empty
entries compare equal, and the value-set agreement follows from the
equivalence. -/
theorem c3_eq_iff_same_values_witness :
    (Roaring64Map.WF ⟨[(0, ⟨[7]⟩), (9, ⟨[]⟩)], false⟩ ∧
     Roaring64Map.WF ⟨[(0, ⟨[7]⟩)], false⟩) ∧
    ((Roaring64Map.beq ⟨[(0, ⟨[7]⟩), (9, ⟨[]⟩)], false⟩
        ⟨[(0, ⟨[7]⟩)], false⟩ = true) ↔
      ∀ v < 2 ^ 64,
        Roaring64Map.contains ⟨[(0, ⟨[7]⟩), (9, ⟨[]⟩)], false⟩ v =
        Roaring64Map.contains ⟨[(0, ⟨[7]⟩)], false⟩ v) :=
  ⟨⟨by decide, by decide⟩,
   c3_eq_iff_same_values ⟨[(0, ⟨[7]⟩), (9, ⟨[]⟩)], false⟩
     ⟨[(0, ⟨[7]⟩)], false⟩ (by decide) (by decide)⟩

/-! ### C9: the scalar bitset container kernels -/

theorem bcLoop_spec (op : Nat → Nat → Nat) (a1 a2 : List Nat) :
    ∀ j : Nat, j ≤ 512 →
    bcLoop op a1 a2 (1024 - 2 * j) =
      ((List.range' (1024 - 2 * j) (2 * j)).map
        (fun k => op (a1.getD k 0) (a2.getD k 0)),
       ((List.range' (1024 - 2 * j) (2 * j)).map
        (fun k => popcnt_u64 (op (a1.getD k 0) (a2.getD k 0)))).sum) := by
  intro j
  induction j with
  | zero =>
    intro _
    rw [bcLoop]
    rw [dif_neg (by rw [BITSET_CONTAINER_SIZE_IN_WORDS]; omega)]
    simp
  | succ j ih =>
    intro hj
    rw [bcLoop]
    rw [dif_pos (by rw [BITSET_CONTAINER_SIZE_IN_WORDS]; omega)]
    have h2 : 1024 - 2 * (j + 1) + 2 = 1024 - 2 * j := by omega
    have hn : 2 * (j + 1) = 2 * j + 1 + 1 := by omega
    rw [h2, ih (by omega), hn]
    rw [List.range'_succ, List.range'_succ]
    simp only [List.map_cons, List.sum_cons]
    rw [show 1024 - (2 * j + 1 + 1) + 1 + 1 = 1024 - 2 * j by omega]
    simp only [Prod.mk.injEq]
    exact ⟨trivial, by omega⟩

theorem bcLoopNocard_spec (op : Nat → Nat → Nat) (a1 a2 : List Nat) :
    ∀ j : Nat, j ≤ 1024 →
    bcLoopNocard op a1 a2 (1024 - j) =
      (List.range' (1024 - j) j).map
        (fun k => op (a1.getD k 0) (a2.getD k 0)) := by
  intro j
  induction j with
  | zero =>
    intro _
    rw [bcLoopNocard]
    rw [dif_neg (by rw [BITSET_CONTAINER_SIZE_IN_WORDS]; omega)]
    simp
  | succ j ih =>
    intro hj
    rw [bcLoopNocard]
    rw [dif_pos (by rw [BITSET_CONTAINER_SIZE_IN_WORDS]; omega)]
    have h1 : 1024 - (j + 1) + 1 = 1024 - j := by omega
    rw [h1, ih (by omega), List.range'_succ, List.map_cons, h1]

theorem bitset_container_fn_spec (op : Nat → Nat → Nat)
    (b1 b2 : bitset_container_t) :
    bitset_container_fn op b1 b2 =
      ⟨bitsetWordsSpec op b1.array b2.array,
       Int.ofNat
         (((bitsetWordsSpec op b1.array b2.array).map popcnt_u64).sum)⟩ := by
  have h := bcLoop_spec op b1.array b2.array 512 (by omega)
  rw [show 1024 - 2 * 512 = 0 by norm_num, show 2 * 512 = 1024 by norm_num] at h
  rw [bitset_container_fn, h]
  rw [bitsetWordsSpec, BITSET_CONTAINER_SIZE_IN_WORDS, List.range_eq_range']
  rw [List.map_map]
  rfl

theorem bitset_container_fn_nocard_spec (op : Nat → Nat → Nat)
    (b1 b2 : bitset_container_t) :
    bitset_container_fn_nocard op b1 b2 =
      ⟨bitsetWordsSpec op b1.array b2.array, -1⟩ := by
  have h := bcLoopNocard_spec op b1.array b2.array 1024 (by omega)
  rw [show 1024 - 1024 = 0 by norm_num] at h
  rw [bitset_container_fn_nocard, h]
  rw [bitsetWordsSpec, BITSET_CONTAINER_SIZE_IN_WORDS, List.range_eq_range']

set_option maxRecDepth 8192 in
/-- C9: in the scalar (non-AVX) build, each bitset-container binary op
(or, and, xor, andnot) on two 1024-word input containers writes, for every
word index k in [0, 1024), the bitwise combination of the inputs' words at
k (this is `bitsetWordsSpec`); the cardinality-tracking variant stores the
total popcount of the 1024 output words, and the `_nocard` variant writes
the same words but stores the sentinel −1. -/
theorem c9_bitset_ops (b1 b2 : bitset_container_t)
    (h1 : b1.array.length = BITSET_CONTAINER_SIZE_IN_WORDS)
    (h2 : b2.array.length = BITSET_CONTAINER_SIZE_IN_WORDS) :
    ((bitset_container_or b1 b2).array =
        bitsetWordsSpec (fun a b => a ||| b) b1.array b2.array ∧
      (bitset_container_or b1 b2).cardinality = Int.ofNat
        (((bitsetWordsSpec (fun a b => a ||| b) b1.array b2.array).map
          popcnt_u64).sum) ∧
      (bitset_container_or_nocard b1 b2).array =
        bitsetWordsSpec (fun a b => a ||| b) b1.array b2.array ∧
      (bitset_container_or_nocard b1 b2).cardinality = -1) ∧
    ((bitset_container_and b1 b2).array =
        bitsetWordsSpec (fun a b => a &&& b) b1.array b2.array ∧
      (bitset_container_and b1 b2).cardinality = Int.ofNat
        (((bitsetWordsSpec (fun a b => a &&& b) b1.array b2.array).map
          popcnt_u64).sum) ∧
      (bitset_container_and_nocard b1 b2).array =
        bitsetWordsSpec (fun a b => a &&& b) b1.array b2.array ∧
      (bitset_container_and_nocard b1 b2).cardinality = -1) ∧
    ((bitset_container_xor b1 b2).array =
        bitsetWordsSpec (fun a b => a ^^^ b) b1.array b2.array ∧
      (bitset_container_xor b1 b2).cardinality = Int.ofNat
        (((bitsetWordsSpec (fun a b => a ^^^ b) b1.array b2.array).map
          popcnt_u64).sum) ∧
      (bitset_container_xor_nocard b1 b2).array =
        bitsetWordsSpec (fun a b => a ^^^ b) b1.array b2.array ∧
      (bitset_container_xor_nocard b1 b2).cardinality = -1) ∧
    ((bitset_container_andnot b1 b2).array =
        bitsetWordsSpec (fun a b => a &&& not64 b) b1.array b2.array ∧
      (bitset_container_andnot b1 b2).cardinality = Int.ofNat
        (((bitsetWordsSpec (fun a b => a &&& not64 b) b1.array
          b2.array).map popcnt_u64).sum) ∧
      (bitset_container_andnot_nocard b1 b2).array =
        bitsetWordsSpec (fun a b => a &&& not64 b) b1.array b2.array ∧
      (bitset_container_andnot_nocard b1 b2).cardinality = -1) := by
  rw [bitset_container_or, bitset_container_or_nocard,
    bitset_container_and, bitset_container_and_nocard,
    bitset_container_xor, bitset_container_xor_nocard,
    bitset_container_andnot, bitset_container_andnot_nocard]
  rw [bitset_container_fn_spec, bitset_container_fn_nocard_spec,
    bitset_container_fn_spec, bitset_container_fn_nocard_spec,
    bitset_container_fn_spec, bitset_container_fn_nocard_spec,
    bitset_container_fn_spec, bitset_container_fn_nocard_spec]
  exact ⟨⟨rfl, rfl, rfl, rfl⟩, ⟨rfl, rfl, rfl, rfl⟩,
    ⟨rfl, rfl, rfl, rfl⟩, ⟨rfl, rfl, rfl, rfl⟩⟩


set_option maxRecDepth 16384 in
/-- C9 witness: the kernel specification evaluated on two concrete
1024-word containers. -/
theorem c9_bitset_ops_witness :
    (bitsetTestA.array.length = BITSET_CONTAINER_SIZE_IN_WORDS ∧
     bitsetTestB.array.length = BITSET_CONTAINER_SIZE_IN_WORDS) ∧
    ((bitset_container_or bitsetTestA bitsetTestB).array =
        bitsetWordsSpec (fun a b => a ||| b) bitsetTestA.array bitsetTestB.array ∧
      (bitset_container_or bitsetTestA bitsetTestB).cardinality = Int.ofNat
        (((bitsetWordsSpec (fun a b => a ||| b) bitsetTestA.array bitsetTestB.array).map
          popcnt_u64).sum) ∧
      (bitset_container_or_nocard bitsetTestA bitsetTestB).array =
        bitsetWordsSpec (fun a b => a ||| b) bitsetTestA.array bitsetTestB.array ∧
      (bitset_container_or_nocard bitsetTestA bitsetTestB).cardinality = -1) ∧
    ((bitset_container_and bitsetTestA bitsetTestB).array =
        bitsetWordsSpec (fun a b => a &&& b) bitsetTestA.array bitsetTestB.array ∧
      (bitset_container_and bitsetTestA bitsetTestB).cardinality = Int.ofNat
        (((bitsetWordsSpec (fun a b => a &&& b) bitsetTestA.array bitsetTestB.array).map
          popcnt_u64).sum) ∧
      (bitset_container_and_nocard bitsetTestA bitsetTestB).array =
        bitsetWordsSpec (fun a b => a &&& b) bitsetTestA.array bitsetTestB.array ∧
      (bitset_container_and_nocard bitsetTestA bitsetTestB).cardinality = -1) ∧
    ((bitset_container_xor bitsetTestA bitsetTestB).array =
        bitsetWordsSpec (fun a b => a ^^^ b) bitsetTestA.array bitsetTestB.array ∧
      (bitset_container_xor bitsetTestA bitsetTestB).cardinality = Int.ofNat
        (((bitsetWordsSpec (fun a b => a ^^^ b) bitsetTestA.array bitsetTestB.array).map
          popcnt_u64).sum) ∧
      (bitset_container_xor_nocard bitsetTestA bitsetTestB).array =
        bitsetWordsSpec (fun a b => a ^^^ b) bitsetTestA.array bitsetTestB.array ∧
      (bitset_container_xor_nocard bitsetTestA bitsetTestB).cardinality = -1) ∧
    ((bitset_container_andnot bitsetTestA bitsetTestB).array =
        bitsetWordsSpec (fun a b => a &&& not64 b) bitsetTestA.array bitsetTestB.array ∧
      (bitset_container_andnot bitsetTestA bitsetTestB).cardinality = Int.ofNat
        (((bitsetWordsSpec (fun a b => a &&& not64 b) bitsetTestA.array
          bitsetTestB.array).map popcnt_u64).sum) ∧
      (bitset_container_andnot_nocard bitsetTestA bitsetTestB).array =
        bitsetWordsSpec (fun a b => a &&& not64 b) bitsetTestA.array bitsetTestB.array ∧
      (bitset_container_andnot_nocard bitsetTestA bitsetTestB).cardinality = -1) :=
  ⟨⟨by simp [bitsetTestA, BITSET_CONTAINER_SIZE_IN_WORDS],
    by simp [bitsetTestB, BITSET_CONTAINER_SIZE_IN_WORDS]⟩,
   c9_bitset_ops bitsetTestA bitsetTestB
     (by simp [bitsetTestA, BITSET_CONTAINER_SIZE_IN_WORDS])
     (by simp [bitsetTestB, BITSET_CONTAINER_SIZE_IN_WORDS])⟩

/-! ### C6: cardinality and the completely full bitmap -/

theorem findKey_some_mem : ∀ {l : List (Nat × Roaring)} {k : Nat}
    {r : Roaring}, Roaring64Map.findKey l k = some r → (k, r) ∈ l := by
  intro l
  induction l with
  | nil =>
    intro k r h
    exact absurd h (by rw [Roaring64Map.findKey]; simp)
  | cons e rest ih =>
    obtain ⟨k', r'⟩ := e
    intro k r h
    rw [Roaring64Map.findKey] at h
    by_cases hk : k' = k
    · rw [if_pos hk] at h
      injection h with h
      subst hk
      subst h
      exact List.mem_cons.2 (Or.inl rfl)
    · rw [if_neg hk] at h
      exact List.mem_cons.2 (Or.inr (ih h))

theorem findKey_of_mem : ∀ {l : List (Nat × Roaring)} {k : Nat} {r : Roaring},
    (l.map Prod.fst).Sorted (· < ·) → (k, r) ∈ l →
    Roaring64Map.findKey l k = some r := by
  intro l
  induction l with
  | nil => intro k r _ hmem; cases hmem
  | cons e rest ih =>
    obtain ⟨k', r'⟩ := e
    intro k r hs hmem
    obtain ⟨hks, hrs⟩ := sorted_keys_cons hs
    rw [Roaring64Map.findKey]
    rcases List.mem_cons.1 hmem with heq | hmem'
    · rw [Prod.mk.injEq] at heq
      obtain ⟨rfl, rfl⟩ := heq
      rw [if_pos rfl]
    · have hk : k' ≠ k := by
        have := hks (k, r) hmem'
        omega
      rw [if_neg hk]
      exact ih hrs hmem'

theorem foldl_mod_sum (M : Nat) (hM : 0 < M) : ∀ (l : List Nat) (acc : Nat),
    acc < M → l.foldl (fun a c => (a + c) % M) acc = (acc + l.sum) % M := by
  intro l
  induction l with
  | nil =>
    intro acc hacc
    simp [Nat.mod_eq_of_lt hacc]
  | cons c rest ih =>
    intro acc hacc
    rw [List.foldl_cons, ih ((acc + c) % M) (Nat.mod_lt _ hM), List.sum_cons,
      Nat.mod_add_mod]
    congr 1
    omega

theorem sum_le_length_mul : ∀ {l : List Nat} {B : Nat}, (∀ x ∈ l, x ≤ B) →
    l.sum ≤ l.length * B := by
  intro l
  induction l with
  | nil => intro B _; simp
  | cons c rest ih =>
    intro B h
    rw [List.sum_cons, List.length_cons]
    have h1 : c ≤ B := h c (List.mem_cons.2 (Or.inl rfl))
    have h2 := ih (fun x hx => h x (List.mem_cons.2 (Or.inr hx)))
    calc c + rest.sum ≤ B + rest.length * B := by omega
    _ = (rest.length + 1) * B := by ring

theorem sum_lt_length_mul : ∀ {l : List Nat} {B : Nat}, (∀ x ∈ l, x ≤ B) →
    (∃ x ∈ l, x < B) → l.sum < l.length * B := by
  intro l
  induction l with
  | nil => intro B _ hx; simp at hx
  | cons c rest ih =>
    intro B h hx
    rw [List.sum_cons, List.length_cons]
    have h1 : c ≤ B := h c (List.mem_cons.2 (Or.inl rfl))
    have hrest : ∀ x ∈ rest, x ≤ B :=
      fun x hx' => h x (List.mem_cons.2 (Or.inr hx'))
    have hle := sum_le_length_mul hrest
    obtain ⟨x, hxmem, hxlt⟩ := hx
    rcases List.mem_cons.1 hxmem with rfl | hxmem'
    · have : (rest.length + 1) * B = B + rest.length * B := by ring
      omega
    · have := ih hrest ⟨x, hxmem', hxlt⟩
      have : (rest.length + 1) * B = B + rest.length * B := by ring
      omega

theorem enumL_cons (k : Nat) (r : Roaring) (rest : List (Nat × Roaring)) :
    Roaring64Map.enumL ((k, r) :: rest) =
      r.vals.map (uniteBytes k) ++ Roaring64Map.enumL rest := by
  rw [Roaring64Map.enumL, List.flatMap_cons]
  rfl

theorem enumL_length : ∀ l : List (Nat × Roaring),
    (Roaring64Map.enumL l).length =
      (l.map (fun e => e.2.cardinality)).sum := by
  intro l
  induction l with
  | nil => rfl
  | cons e rest ih =>
    obtain ⟨k, r⟩ := e
    rw [enumL_cons, List.length_append, List.length_map, ih, List.map_cons,
      List.sum_cons, Roaring.cardinality]

theorem mem_enumL : ∀ {l : List (Nat × Roaring)} {v : Nat},
    v ∈ Roaring64Map.enumL l ↔
      ∃ e ∈ l, ∃ low ∈ e.2.vals, v = uniteBytes e.1 low := by
  intro l v
  rw [Roaring64Map.enumL, List.mem_flatMap]
  constructor
  · rintro ⟨e, he, hv⟩
    obtain ⟨low, hlow, heq⟩ := List.mem_map.1 hv
    exact ⟨e, he, low, hlow, heq.symm⟩
  · rintro ⟨e, he, low, hlow, rfl⟩
    exact ⟨e, he, List.mem_map.2 ⟨low, hlow, rfl⟩⟩

/-- Under well-formedness, the enumeration contains exactly the 64-bit
values the map contains. -/
theorem mem_enumL_iff {l : List (Nat × Roaring)}
    (hs : (l.map Prod.fst).Sorted (· < ·))
    (hw : ∀ e ∈ l, e.1 < 2 ^ 32 ∧ e.2.WF) (v : Nat) :
    v ∈ Roaring64Map.enumL l ↔
      v < 2 ^ 64 ∧
        Roaring64Map.foundContains l (highBytes v) (lowBytes v) = true := by
  constructor
  · intro hv
    obtain ⟨e, he, low, hlow, rfl⟩ := mem_enumL.1 hv
    obtain ⟨hk, hWF⟩ := hw e he
    have hlowlt : low < 2 ^ 32 := hWF.2 low hlow
    refine ⟨uniteBytes_lt _ _ hk hlowlt, ?_⟩
    rw [highBytes_uniteBytes _ _ hk hlowlt, lowBytes_uniteBytes _ _ hlowlt]
    rw [Roaring64Map.foundContains]
    rw [findKey_of_mem hs (show (e.1, e.2) ∈ l from he)]
    exact contains_true_of_mem hlow
  · rintro ⟨hv, hc⟩
    rw [Roaring64Map.foundContains] at hc
    cases hfind : Roaring64Map.findKey l (highBytes v) with
    | none => simp [hfind] at hc
    | some r =>
      simp only [hfind] at hc
      rw [Roaring.contains, list_contains_iff] at hc
      have hmem := findKey_some_mem hfind
      rw [mem_enumL]
      exact ⟨(highBytes v, r), hmem, lowBytes v, hc,
        (uniteBytes_high_low v hv).symm⟩

/-- Under well-formedness, the enumeration has no duplicates. -/
theorem enumL_nodup : ∀ {l : List (Nat × Roaring)},
    (l.map Prod.fst).Sorted (· < ·) →
    (∀ e ∈ l, e.1 < 2 ^ 32 ∧ e.2.WF) →
    (Roaring64Map.enumL l).Nodup := by
  intro l
  induction l with
  | nil => intro _ _; exact List.nodup_nil
  | cons e rest ih =>
    obtain ⟨k, r⟩ := e
    intro hs hw
    obtain ⟨hks, hrs⟩ := sorted_keys_cons hs
    obtain ⟨hk, hWF⟩ := hw (k, r) (List.mem_cons.2 (Or.inl rfl))
    rw [enumL_cons, List.nodup_append]
    refine ⟨?_, ih hrs (fun e he => hw e (List.mem_cons.2 (Or.inr he))), ?_⟩
    · apply List.Nodup.map_on ?_ hWF.1.nodup
      intro l1 hl1 l2 hl2 heq
      have h1 : lowBytes (uniteBytes k l1) = lowBytes (uniteBytes k l2) := by
        rw [heq]
      rw [lowBytes_uniteBytes _ _ (hWF.2 l1 hl1),
        lowBytes_uniteBytes _ _ (hWF.2 l2 hl2)] at h1
      exact h1
    · intro a ha1 ha2
      obtain ⟨low, hlow, rfl⟩ := List.mem_map.1 ha1
      obtain ⟨e', he', low', hlow', heq'⟩ := mem_enumL.1 ha2
      obtain ⟨hk', hWF'⟩ := hw e' (List.mem_cons.2 (Or.inr he'))
      have hkk : k < e'.1 := hks e' he'
      have hhigh : highBytes (uniteBytes k low) = k :=
        highBytes_uniteBytes _ _ hk (hWF.2 low hlow)
      have hhigh' : highBytes (uniteBytes e'.1 low') = e'.1 :=
        highBytes_uniteBytes _ _ hk' (hWF'.2 low' hlow')
      rw [heq'] at hhigh
      rw [hhigh'] at hhigh
      omega

theorem sorted_length_eq_of_superset {l : List Nat} {N : Nat}
    (hs : l.Sorted (· < ·)) (hb : ∀ x ∈ l, x < N) (hsup : ∀ x < N, x ∈ l) :
    l.length = N := by
  have h1 := sorted_length_le hs N hb
  have h2 : N ≤ l.length := by
    have hss : Finset.range N ⊆ l.toFinset := fun x hx =>
      List.mem_toFinset.2 (hsup x (Finset.mem_range.1 hx))
    calc N = (Finset.range N).card := (Finset.card_range N).symm
    _ ≤ l.toFinset.card := Finset.card_le_card hss
    _ = l.length := List.toFinset_card_of_nodup hs.nodup
  omega

/-- Under well-formedness, the code's fullness test (2^32 outer entries,
each of inner cardinality 2^32) holds exactly when every 64-bit value is
contained. -/
theorem full_cond_iff {m : Roaring64Map} (hm : m.WF) :
    (m.roarings.length = 2 ^ 32 ∧
      ∀ e ∈ m.roarings, e.2.cardinality = 2 ^ 32) ↔
    (∀ v < 2 ^ 64, m.contains v = true) := by
  constructor
  · rintro ⟨hlen, hall⟩ v hv
    have hhv : highBytes v < 2 ^ 32 := Nat.mod_lt _ (by norm_num)
    have hkeys : ∀ x < 2 ^ 32, x ∈ m.roarings.map Prod.fst := by
      apply sorted_full_mem hm.1
      · intro x hx
        obtain ⟨e, he, rfl⟩ := List.mem_map.1 hx
        exact (hm.2 e he).1
      · rw [List.length_map]; exact hlen
    obtain ⟨e, he, hek⟩ := List.mem_map.1 (hkeys (highBytes v) hhv)
    have hfind : Roaring64Map.findKey m.roarings e.1 = some e.2 :=
      findKey_of_mem hm.1 he
    have hWF := (hm.2 e he).2
    have hcard : e.2.vals.length = 2 ^ 32 := by
      have := hall e he
      rwa [Roaring.cardinality] at this
    have hfull := sorted_full_mem hWF.1 (2 ^ 32) hWF.2 hcard
    have hfc : Roaring64Map.foundContains m.roarings e.1 (lowBytes v)
        = true := by
      rw [Roaring64Map.foundContains]
      simp only [hfind]
      exact contains_true_of_mem (hfull (lowBytes v) (Nat.mod_lt _ (by norm_num)))
    rw [Roaring64Map.contains, ← hek]
    exact hfc
  · intro hcont
    have hkeymem : ∀ k < 2 ^ 32, ∃ r, (k, r) ∈ m.roarings := by
      intro k hk
      have hc := hcont (uniteBytes k 0) (uniteBytes_lt k 0 hk (by norm_num))
      rw [Roaring64Map.contains,
        highBytes_uniteBytes k 0 hk (by norm_num)] at hc
      rw [Roaring64Map.foundContains] at hc
      cases hfind : Roaring64Map.findKey m.roarings k with
      | none => simp [hfind] at hc
      | some r => exact ⟨r, findKey_some_mem hfind⟩
    constructor
    · rw [show m.roarings.length = (m.roarings.map Prod.fst).length by
        rw [List.length_map]]
      apply sorted_length_eq_of_superset hm.1
      · intro x hx
        obtain ⟨e, he, rfl⟩ := List.mem_map.1 hx
        exact (hm.2 e he).1
      · intro x hx
        obtain ⟨r, hr⟩ := hkeymem x hx
        exact List.mem_map.2 ⟨(x, r), hr, rfl⟩
    · intro e he
      have hk : e.1 < 2 ^ 32 := (hm.2 e he).1
      have hWF := (hm.2 e he).2
      have hfind : Roaring64Map.findKey m.roarings e.1 = some e.2 :=
        findKey_of_mem hm.1 he
      rw [Roaring.cardinality]
      apply sorted_length_eq_of_superset hWF.1 hWF.2
      intro low hlow
      have hc := hcont (uniteBytes e.1 low) (uniteBytes_lt _ _ hk hlow)
      rw [Roaring64Map.contains, highBytes_uniteBytes _ _ hk hlow,
        lowBytes_uniteBytes _ _ hlow, Roaring64Map.foundContains] at hc
      simp only [hfind] at hc
      rw [Roaring.contains, list_contains_iff] at hc
      exact hc

theorem cardinality_nothrow_eq (m : Roaring64Map) :
    m.cardinality_nothrow =
      if m.roarings.length = 2 ^ 32 ∧
          (∀ e ∈ m.roarings, e.2.cardinality = 2 ^ 32) then (0, true)
      else ((m.roarings.map (fun e => e.2.cardinality)).sum % 2 ^ 64,
        false) := by
  rw [Roaring64Map.cardinality_nothrow]
  have hfold : m.roarings.foldl
        (fun acc e => (acc + e.2.cardinality) % 2 ^ 64) 0
      = (m.roarings.map (fun e => e.2.cardinality)).sum % 2 ^ 64 := by
    rw [← List.foldl_map (fun e : Nat × Roaring => e.2.cardinality)
      (fun a c => (a + c) % 2 ^ 64)]
    rw [foldl_mod_sum (2 ^ 64) (by norm_num) _ 0 (by norm_num)]
    simp
  by_cases hcond : m.roarings.length = 2 ^ 32 ∧
      ∀ e ∈ m.roarings, e.2.cardinality = 2 ^ 32
  · rw [if_pos hcond]
    have hb : (m.roarings.length == 2 ^ 32 &&
        m.roarings.all (fun e => e.2.cardinality == 2 ^ 32)) = true := by
      rw [Bool.and_eq_true, beq_iff_eq, List.all_eq_true]
      exact ⟨hcond.1, fun e he => beq_iff_eq.2 (hcond.2 e he)⟩
    simp only [hb, if_true]
  · rw [if_neg hcond]
    have hb : (m.roarings.length == 2 ^ 32 &&
        m.roarings.all (fun e => e.2.cardinality == 2 ^ 32)) = false := by
      rw [Bool.eq_false_iff]
      intro habs
      rw [Bool.and_eq_true, beq_iff_eq, List.all_eq_true] at habs
      exact hcond ⟨habs.1, fun e he => beq_iff_eq.1 (habs.2 e he)⟩
    simp only [hb, hfold]
    rfl

/-- C6: `cardinality()` fails (returns `none`, modelling the
std::length_error / termination) exactly when the bitmap contains all 2^64
values; otherwise it returns the number of contained values.
`cardinality_nothrow()` never fails: it returns (0, true) on the completely
full bitmap and (number of contained values, false) otherwise. -/
theorem c6_cardinality (m : Roaring64Map) (hm : m.WF) :
    (m.cardinality = none ↔ ∀ v < 2 ^ 64, m.contains v = true) ∧
    (m.cardinality = none → m.cardinality_nothrow = (0, true)) ∧
    (∀ c, m.cardinality = some c →
      c = m.containedSet.card ∧ m.cardinality_nothrow = (c, false)) := by
  have hcond := cardinality_nothrow_eq m
  have hcount : (Roaring64Map.enumL m.roarings).length =
      m.containedSet.card := by
    have hnd := enumL_nodup hm.1 hm.2
    have hset : m.containedSet = (Roaring64Map.enumL m.roarings).toFinset := by
      apply Finset.ext
      intro v
      rw [Roaring64Map.containedSet, Finset.mem_filter, Finset.mem_range,
        List.mem_toFinset, mem_enumL_iff hm.1 hm.2, Roaring64Map.contains]
    rw [hset, List.toFinset_card_of_nodup hnd]
  by_cases hfull : m.roarings.length = 2 ^ 32 ∧
      ∀ e ∈ m.roarings, e.2.cardinality = 2 ^ 32
  · have hnt : m.cardinality_nothrow = (0, true) := by
      rw [hcond, if_pos hfull]
    have hc : m.cardinality = none := by
      rw [Roaring64Map.cardinality, hnt]
      rfl
    refine ⟨?_, fun _ => hnt, ?_⟩
    · rw [hc]
      simp only [true_iff]
      exact (full_cond_iff hm).1 hfull
    · intro c hcc
      rw [hc] at hcc
      cases hcc
  · have hnt : m.cardinality_nothrow =
        ((m.roarings.map (fun e => e.2.cardinality)).sum % 2 ^ 64, false) := by
      rw [hcond, if_neg hfull]
    have hc : m.cardinality =
        some ((m.roarings.map (fun e => e.2.cardinality)).sum % 2 ^ 64) := by
      rw [Roaring64Map.cardinality, hnt]
      rfl
    have hcardle : ∀ x ∈ m.roarings.map (fun e => e.2.cardinality),
        x ≤ 2 ^ 32 := by
      intro x hx
      obtain ⟨e, he, rfl⟩ := List.mem_map.1 hx
      have hWF := (hm.2 e he).2
      exact sorted_length_le hWF.1 (2 ^ 32) hWF.2
    have hlenle : m.roarings.length ≤ 2 ^ 32 := by
      have := sorted_length_le hm.1 (2 ^ 32)
        (fun x hx => by
          obtain ⟨e, he, rfl⟩ := List.mem_map.1 hx
          exact (hm.2 e he).1)
      rwa [List.length_map] at this
    have hsumlt : (m.roarings.map (fun e => e.2.cardinality)).sum
        < 2 ^ 64 := by
      rw [Classical.not_and_iff_or_not_not] at hfull
      rcases hfull with hlen | hcards
      · have h1 := sum_le_length_mul hcardle
        rw [List.length_map] at h1
        have h2 : m.roarings.length < 2 ^ 32 := by omega
        calc (m.roarings.map (fun e => e.2.cardinality)).sum
            ≤ m.roarings.length * 2 ^ 32 := h1
        _ < 2 ^ 32 * 2 ^ 32 :=
            (Nat.mul_lt_mul_right (by norm_num : (0:Nat) < 2 ^ 32)).2 h2
        _ = 2 ^ 64 := by norm_num
      · rw [Classical.not_forall] at hcards
        obtain ⟨e, he⟩ := hcards
        rw [Classical.not_imp] at he
        have hlt : e.2.cardinality < 2 ^ 32 := by
          have := hcardle e.2.cardinality
            (List.mem_map.2 ⟨e, he.1, rfl⟩)
          omega
        have h1 := sum_lt_length_mul hcardle
          ⟨e.2.cardinality, List.mem_map.2 ⟨e, he.1, rfl⟩, hlt⟩
        rw [List.length_map] at h1
        calc (m.roarings.map (fun e => e.2.cardinality)).sum
            < m.roarings.length * 2 ^ 32 := h1
        _ ≤ 2 ^ 32 * 2 ^ 32 := Nat.mul_le_mul_right _ hlenle
        _ = 2 ^ 64 := by norm_num
    have hmod : (m.roarings.map (fun e => e.2.cardinality)).sum % 2 ^ 64 =
        (m.roarings.map (fun e => e.2.cardinality)).sum :=
      Nat.mod_eq_of_lt hsumlt
    have hval : (m.roarings.map (fun e => e.2.cardinality)).sum =
        m.containedSet.card := by
      rw [← hcount, enumL_length]
    refine ⟨?_, ?_, ?_⟩
    · rw [hc]
      constructor
      · intro habs
        cases habs
      · intro hcont
        exact (hfull ((full_cond_iff hm).2 hcont)).elim
    · intro habs
      rw [hc] at habs
      cases habs
    · intro c hcc
      rw [hc] at hcc
      injection hcc with hcc
      subst hcc
      rw [hmod, hval]
      exact ⟨rfl, by rw [hnt, hmod, hval]⟩

/-- C6 witness: the cardinality contract evaluated on a concrete two-entry
map containing {1, 5, 2·2^32}. -/
theorem c6_cardinality_witness :
    Roaring64Map.WF ⟨[(0, ⟨[1, 5]⟩), (2, ⟨[0]⟩)], false⟩ ∧
    ((Roaring64Map.cardinality ⟨[(0, ⟨[1, 5]⟩), (2, ⟨[0]⟩)], false⟩ = none ↔
        ∀ v < 2 ^ 64,
          Roaring64Map.contains ⟨[(0, ⟨[1, 5]⟩), (2, ⟨[0]⟩)], false⟩ v =
            true) ∧
      (Roaring64Map.cardinality ⟨[(0, ⟨[1, 5]⟩), (2, ⟨[0]⟩)], false⟩ =
          none →
        Roaring64Map.cardinality_nothrow
          ⟨[(0, ⟨[1, 5]⟩), (2, ⟨[0]⟩)], false⟩ = (0, true)) ∧
      (∀ c, Roaring64Map.cardinality ⟨[(0, ⟨[1, 5]⟩), (2, ⟨[0]⟩)], false⟩ =
          some c →
        c = (Roaring64Map.containedSet
            ⟨[(0, ⟨[1, 5]⟩), (2, ⟨[0]⟩)], false⟩).card ∧
        Roaring64Map.cardinality_nothrow
          ⟨[(0, ⟨[1, 5]⟩), (2, ⟨[0]⟩)], false⟩ = (c, false))) :=
  ⟨by decide, c6_cardinality ⟨[(0, ⟨[1, 5]⟩), (2, ⟨[0]⟩)], false⟩ (by decide)⟩

/-! ### C7: strict subset -/

theorem subsetLoop_none_iff {otherL : List (Nat × Roaring)} (rs : Bool) :
    ∀ {selfL : List (Nat × Roaring)} (flag : Bool),
    (selfL.map Prod.fst).Sorted (· < ·) →
    (Roaring64Map.subsetLoop otherL rs selfL flag = none ↔
      ∃ h low, Roaring64Map.foundContains selfL h low = true ∧
        Roaring64Map.foundContains otherL h low = false) := by
  intro selfL
  induction selfL with
  | nil =>
    intro flag _
    constructor
    · intro habs
      rw [Roaring64Map.subsetLoop] at habs
      cases habs
    · rintro ⟨h, low, hc, _⟩
      rw [foundContains_nil] at hc
      cases hc
  | cons e rest ih =>
    obtain ⟨k, r⟩ := e
    intro flag hs
    obtain ⟨hks, hrs⟩ := sorted_keys_cons hs
    rw [Roaring64Map.subsetLoop]
    by_cases hemp : r.isEmpty = true
    · rw [if_pos hemp, ih flag hrs]
      constructor
      · rintro ⟨h, low, hc, hnc⟩
        refine ⟨h, low, ?_, hnc⟩
        rw [foundContains_cons]
        by_cases hkh : k = h
        · subst hkh
          rw [foundContains_eq_false low
            (fun e he => by have := hks e he; omega)] at hc
          cases hc
        · rw [if_neg hkh]
          exact hc
      · rintro ⟨h, low, hc, hnc⟩
        rw [foundContains_cons] at hc
        by_cases hkh : k = h
        · rw [if_pos hkh, empty_contains_false hemp] at hc
          cases hc
        · rw [if_neg hkh] at hc
          exact ⟨h, low, hc, hnc⟩
    · rw [if_neg hemp]
      cases hfind : Roaring64Map.findKey otherL k with
      | none =>
        simp only []
        constructor
        · intro _
          obtain ⟨low, hlow⟩ := nonempty_has_member hemp
          refine ⟨k, low, ?_, ?_⟩
          · rw [foundContains_cons, if_pos rfl]
            exact contains_true_of_mem hlow
          · rw [Roaring64Map.foundContains, hfind]
        · intro _
          trivial
      | some ro =>
        simp only []
        by_cases hsub : r.isSubset ro = true
        · rw [if_pos hsub, ih _ hrs]
          constructor
          · rintro ⟨h, low, hc, hnc⟩
            refine ⟨h, low, ?_, hnc⟩
            rw [foundContains_cons]
            by_cases hkh : k = h
            · subst hkh
              rw [foundContains_eq_false low
                (fun e he => by have := hks e he; omega)] at hc
              cases hc
            · rw [if_neg hkh]
              exact hc
          · rintro ⟨h, low, hc, hnc⟩
            rw [foundContains_cons] at hc
            by_cases hkh : k = h
            · subst hkh
              rw [if_pos rfl] at hc
              exfalso
              simp only [Roaring64Map.foundContains, hfind] at hnc
              rw [Roaring.isSubset, List.all_eq_true] at hsub
              rw [Roaring.contains, list_contains_iff] at hc
              have hmem := hsub low hc
              rw [list_contains_iff] at hmem
              rw [Roaring.contains, Bool.eq_false_iff] at hnc
              exact hnc ((list_contains_iff _ _).2 hmem)
            · rw [if_neg hkh] at hc
              exact ⟨h, low, hc, hnc⟩
        · rw [if_neg hsub]
          constructor
          · intro _
            have hex : ∃ low ∈ r.vals, ro.vals.contains low = false := by
              by_contra hall
              push_neg at hall
              apply hsub
              rw [Roaring.isSubset, List.all_eq_true]
              intro x hx
              cases hcc : ro.vals.contains x with
              | false => exact absurd hcc (hall x hx)
              | true => rfl
            obtain ⟨low, hlow, hnotin⟩ := hex
            refine ⟨k, low, ?_, ?_⟩
            · rw [foundContains_cons, if_pos rfl]
              exact contains_true_of_mem hlow
            · simp only [Roaring64Map.foundContains, hfind]
              rw [Roaring.contains]
              exact hnotin
          · intro _
            trivial

theorem subsetLoop_some_subset {otherL : List (Nat × Roaring)} (rs : Bool) :
    ∀ {selfL : List (Nat × Roaring)} (flag f : Bool),
    Roaring64Map.subsetLoop otherL rs selfL flag = some f →
    ∀ e ∈ selfL, ¬ e.2.isEmpty = true →
      ∃ ro, Roaring64Map.findKey otherL e.1 = some ro ∧
        e.2.isSubset ro = true := by
  intro selfL
  induction selfL with
  | nil => intro flag f _ e he; cases he
  | cons ehead rest ih =>
    obtain ⟨k, r⟩ := ehead
    intro flag f h e he hne
    rw [Roaring64Map.subsetLoop] at h
    by_cases hemp : r.isEmpty = true
    · rw [if_pos hemp] at h
      rcases List.mem_cons.1 he with heq | hmem
      · rw [heq] at hne
        exact absurd hemp hne
      · exact ih flag f h e hmem hne
    · rw [if_neg hemp] at h
      cases hfind : Roaring64Map.findKey otherL k with
      | none =>
        simp only [hfind] at h
        cases h
      | some ro =>
        simp only [hfind] at h
        by_cases hsub : r.isSubset ro = true
        · rw [if_pos hsub] at h
          rcases List.mem_cons.1 he with heq | hmem
          · rw [heq]
            exact ⟨ro, hfind, hsub⟩
          · exact ih _ f h e hmem hne
        · rw [if_neg hsub] at h
          cases h

theorem subsetLoop_some_flag {otherL : List (Nat × Roaring)} (rs : Bool) :
    ∀ {selfL : List (Nat × Roaring)} (flag f : Bool),
    Roaring64Map.subsetLoop otherL rs selfL flag = some f →
    (f = true ↔ (flag = true ∨ (rs = true ∧ ∃ e ∈ selfL,
      ¬ e.2.isEmpty = true ∧ ∃ ro,
        Roaring64Map.findKey otherL e.1 = some ro ∧
        e.2.cardinality ≠ ro.cardinality))) := by
  intro selfL
  induction selfL with
  | nil =>
    intro flag f h
    rw [Roaring64Map.subsetLoop] at h
    injection h with h
    subst h
    simp
  | cons ehead rest ih =>
    obtain ⟨k, r⟩ := ehead
    intro flag f h
    rw [Roaring64Map.subsetLoop] at h
    by_cases hemp : r.isEmpty = true
    · rw [if_pos hemp] at h
      rw [ih flag f h]
      constructor
      · rintro (hf | ⟨hrs, e, he, hne, hro⟩)
        · exact Or.inl hf
        · exact Or.inr ⟨hrs, e, List.mem_cons.2 (Or.inr he), hne, hro⟩
      · rintro (hf | ⟨hrs, e, he, hne, hro⟩)
        · exact Or.inl hf
        · rcases List.mem_cons.1 he with heq | hmem
          · rw [heq] at hne
            exact absurd hemp hne
          · exact Or.inr ⟨hrs, e, hmem, hne, hro⟩
    · rw [if_neg hemp] at h
      cases hfind : Roaring64Map.findKey otherL k with
      | none =>
        simp only [hfind] at h
        cases h
      | some ro =>
        simp only [hfind] at h
        by_cases hsub : r.isSubset ro = true
        · rw [if_pos hsub] at h
          rw [ih _ f h]
          rw [Bool.or_eq_true, Bool.and_eq_true]
          constructor
          · rintro ((hf | ⟨hrs, hne'⟩) | ⟨hrs, e, he, hne, hro⟩)
            · exact Or.inl hf
            · refine Or.inr ⟨hrs, (k, r), List.mem_cons.2 (Or.inl rfl),
                hemp, ro, hfind, ?_⟩
              rw [Bool.not_eq_true', beq_eq_false_iff_ne] at hne'
              exact hne'
            · exact Or.inr ⟨hrs, e, List.mem_cons.2 (Or.inr he), hne, hro⟩
          · rintro (hf | ⟨hrs, e, he, hne, ro', hfind', hcard⟩)
            · exact Or.inl (Or.inl hf)
            · rcases List.mem_cons.1 he with heq | hmem
              · refine Or.inl (Or.inr ⟨hrs, ?_⟩)
                rw [Bool.not_eq_true', beq_eq_false_iff_ne]
                rw [heq] at hfind' hcard
                rw [hfind] at hfind'
                injection hfind' with hro
                rw [hro]
                exact hcard
              · exact Or.inr ⟨hrs, e, hmem, hne, ro', hfind', hcard⟩
        · rw [if_neg hsub] at h
          cases h

theorem subsetCondB_iff (selfL : List (Nat × Roaring)) :
    ∀ otherL : List (Nat × Roaring),
    (Roaring64Map.subsetCondB selfL otherL = true ↔
      ∃ e ∈ otherL, ¬ e.2.isEmpty = true ∧
        (Roaring64Map.findKey selfL e.1 = none ∨
          ∃ r, Roaring64Map.findKey selfL e.1 = some r ∧
            r.isEmpty = true)) := by
  intro otherL
  induction otherL with
  | nil =>
    constructor
    · intro habs
      rw [Roaring64Map.subsetCondB] at habs
      cases habs
    · rintro ⟨e, he, _⟩
      cases he
  | cons ehead rest ih =>
    obtain ⟨k, ro⟩ := ehead
    rw [Roaring64Map.subsetCondB]
    by_cases hemp : ro.isEmpty = true
    · rw [if_pos hemp, ih]
      constructor
      · rintro ⟨e, he, hne, hro⟩
        exact ⟨e, List.mem_cons.2 (Or.inr he), hne, hro⟩
      · rintro ⟨e, he, hne, hro⟩
        rcases List.mem_cons.1 he with heq | hmem
        · rw [heq] at hne
          exact absurd hemp hne
        · exact ⟨e, hmem, hne, hro⟩
    · rw [if_neg hemp]
      cases hfind : Roaring64Map.findKey selfL k with
      | none =>
        simp only []
        constructor
        · intro _
          exact ⟨(k, ro), List.mem_cons.2 (Or.inl rfl), hemp, Or.inl hfind⟩
        · intro _
          trivial
      | some r =>
        simp only []
        by_cases hre : r.isEmpty = true
        · rw [if_pos hre]
          constructor
          · intro _
            exact ⟨(k, ro), List.mem_cons.2 (Or.inl rfl), hemp,
              Or.inr ⟨r, hfind, hre⟩⟩
          · intro _
            trivial
        · rw [if_neg hre, ih]
          constructor
          · rintro ⟨e, he, hne, hro⟩
            exact ⟨e, List.mem_cons.2 (Or.inr he), hne, hro⟩
          · rintro ⟨e, he, hne, hro⟩
            rcases List.mem_cons.1 he with heq | hmem
            · exfalso
              rw [heq] at hro
              rcases hro with hnone | ⟨r', hsome, hre'⟩
              · rw [hfind] at hnone
                cases hnone
              · rw [hfind] at hsome
                injection hsome with hr'
                rw [← hr'] at hre'
                exact hre hre'
            · exact ⟨e, hmem, hne, hro⟩

theorem foundContains_true_iff {l : List (Nat × Roaring)} {h low : Nat} :
    Roaring64Map.foundContains l h low = true ↔
      ∃ r, Roaring64Map.findKey l h = some r ∧ low ∈ r.vals := by
  rw [Roaring64Map.foundContains]
  cases hf : Roaring64Map.findKey l h with
  | none => simp
  | some r =>
    simp only [Option.some.injEq]
    rw [Roaring.contains, list_contains_iff]
    constructor
    · intro hmem
      exact ⟨r, rfl, hmem⟩
    · rintro ⟨r', hr', hmem⟩
      rw [hr']
      exact hmem

theorem not_isEmpty_of_mem {r : Roaring} {x : Nat} (h : x ∈ r.vals) :
    ¬ r.isEmpty = true := by
  intro habs
  rw [Roaring.isEmpty, List.isEmpty_iff] at habs
  rw [habs] at h
  cases h

theorem isSubset_mem_iff {r ro : Roaring} :
    r.isSubset ro = true ↔ ∀ x ∈ r.vals, x ∈ ro.vals := by
  rw [Roaring.isSubset, List.all_eq_true]
  constructor
  · intro hall x hx
    exact (list_contains_iff _ _).1 (hall x hx)
  · intro hall x hx
    exact (list_contains_iff _ _).2 (hall x hx)

theorem length_lt_of_proper_subset {l1 l2 : List Nat}
    (h1 : l1.Sorted (· < ·)) (h2 : l2.Sorted (· < ·))
    (hsub : ∀ x ∈ l1, x ∈ l2) {x : Nat} (hx2 : x ∈ l2) (hx1 : x ∉ l1) :
    l1.length < l2.length := by
  rw [← List.toFinset_card_of_nodup h1.nodup,
    ← List.toFinset_card_of_nodup h2.nodup]
  apply Finset.card_lt_card
  rw [Finset.ssubset_iff_of_subset (fun y hy =>
    List.mem_toFinset.2 (hsub y (List.mem_toFinset.1 hy)))]
  exact ⟨x, List.mem_toFinset.2 hx2, fun hc => hx1 (List.mem_toFinset.1 hc)⟩

theorem exists_not_mem_of_card_ne {l1 l2 : List Nat}
    (h1 : l1.Sorted (· < ·)) (h2 : l2.Sorted (· < ·))
    (hsub : ∀ x ∈ l1, x ∈ l2) (hne : l1.length ≠ l2.length) :
    ∃ x ∈ l2, x ∉ l1 := by
  by_contra hall
  push_neg at hall
  have heq : l1 = l2 := sorted_eq_of_mem_iff h1 h2
    (fun x => ⟨fun hx => hsub x hx, fun hx => hall x hx⟩)
  exact hne (by rw [heq])

/-- `contains` on a recomposed 64-bit value is the raw lookup. -/
theorem contains_uniteBytes (m : Roaring64Map) {h low : Nat}
    (hh : h < 2 ^ 32) (hlow : low < 2 ^ 32) :
    m.contains (uniteBytes h low) =
      Roaring64Map.foundContains m.roarings h low := by
  rw [Roaring64Map.contains, highBytes_uniteBytes h low hh hlow,
    lowBytes_uniteBytes h low hlow]

/-- C7: for all well-formed Roaring64Maps A and B, `A.isStrictSubset(B)`
returns true if and only if every 64-bit value contained in A is contained
in B and some 64-bit value contained in B is not contained in A. -/
theorem c7_isStrictSubset (A B : Roaring64Map) (hA : A.WF) (hB : B.WF) :
    (A.isStrictSubset B = true ↔
      ((∀ v < 2 ^ 64, A.contains v = true → B.contains v = true) ∧
        ∃ v < 2 ^ 64, B.contains v = true ∧ ¬ A.contains v = true)) := by
  rw [Roaring64Map.isStrictSubset, Roaring64Map.isSubsetAux]
  cases hloop : Roaring64Map.subsetLoop B.roarings true A.roarings false with
  | none =>
    simp only []
    constructor
    · intro habs
      cases habs
    · rintro ⟨hsubset, _⟩
      exfalso
      obtain ⟨h, low, hc, hnc⟩ := (subsetLoop_none_iff true false hA.1).1 hloop
      obtain ⟨r, hfind, hmem⟩ := foundContains_true_iff.1 hc
      have hentry := findKey_some_mem hfind
      have hh : h < 2 ^ 32 := (hA.2 (h, r) hentry).1
      have hlow : low < 2 ^ 32 := ((hA.2 (h, r) hentry).2).2 low hmem
      have hv := uniteBytes_lt h low hh hlow
      have hAc : A.contains (uniteBytes h low) = true := by
        rw [contains_uniteBytes A hh hlow]
        exact hc
      have hBc := hsubset (uniteBytes h low) hv hAc
      rw [contains_uniteBytes B hh hlow, hnc] at hBc
      cases hBc
  | some f =>
    simp only [Bool.not_true]
    rw [if_neg (by simp : ¬ (false = true))]
    have hnot : ¬ ∃ h low,
        Roaring64Map.foundContains A.roarings h low = true ∧
        Roaring64Map.foundContains B.roarings h low = false := by
      intro hex
      rw [← subsetLoop_none_iff true false hA.1] at hex
      rw [hloop] at hex
      cases hex
    have hsubset : ∀ v < 2 ^ 64, A.contains v = true →
        B.contains v = true := by
      intro v hv hAc
      by_contra hBc
      rw [Bool.not_eq_true, Roaring64Map.contains] at hBc
      rw [Roaring64Map.contains] at hAc
      exact hnot ⟨highBytes v, lowBytes v, hAc, hBc⟩
    by_cases hf : f = true
    · rw [if_pos hf]
      constructor
      · intro _
        refine ⟨hsubset, ?_⟩
        have hflag := (subsetLoop_some_flag true false f hloop).1 hf
        rcases hflag with habs | ⟨_, e, he, hne, ro, hfind, hcard⟩
        · cases habs
        · obtain ⟨ro', hfind', hsub'⟩ :=
            subsetLoop_some_subset true false f hloop e he hne
          rw [hfind] at hfind'
          injection hfind' with hro
          subst hro
          have hroWF : ro.WF := (hB.2 (e.1, ro) (findKey_some_mem hfind)).2
          have heWF : e.2.WF := (hA.2 e he).2
          have hmemsub := isSubset_mem_iff.1 hsub'
          rw [Roaring.cardinality, Roaring.cardinality] at hcard
          obtain ⟨x, hx2, hx1⟩ := exists_not_mem_of_card_ne heWF.1 hroWF.1
            hmemsub hcard
          have hek : e.1 < 2 ^ 32 := (hA.2 e he).1
          have hxlt : x < 2 ^ 32 := hroWF.2 x hx2
          refine ⟨uniteBytes e.1 x, uniteBytes_lt _ _ hek hxlt, ?_, ?_⟩
          · rw [contains_uniteBytes B hek hxlt]
            exact foundContains_true_iff.2 ⟨ro, hfind, hx2⟩
          · rw [contains_uniteBytes A hek hxlt]
            intro habs
            obtain ⟨r', hfr', hmem'⟩ := foundContains_true_iff.1 habs
            rw [findKey_of_mem hA.1 he] at hfr'
            injection hfr' with hr'
            rw [← hr'] at hmem'
            exact hx1 hmem'
      · intro _
        rfl
    · rw [if_neg hf]
      constructor
      · intro hcond
        refine ⟨hsubset, ?_⟩
        obtain ⟨e, he, hne, hcase⟩ :=
          (subsetCondB_iff A.roarings B.roarings).1 hcond
        obtain ⟨low, hlow⟩ := nonempty_has_member hne
        have hek : e.1 < 2 ^ 32 := (hB.2 e he).1
        have hlowlt : low < 2 ^ 32 := ((hB.2 e he).2).2 low hlow
        refine ⟨uniteBytes e.1 low, uniteBytes_lt _ _ hek hlowlt, ?_, ?_⟩
        · rw [contains_uniteBytes B hek hlowlt]
          exact foundContains_true_iff.2 ⟨e.2, findKey_of_mem hB.1 he, hlow⟩
        · rw [contains_uniteBytes A hek hlowlt]
          intro habs
          obtain ⟨r', hfr', hmem'⟩ := foundContains_true_iff.1 habs
          rcases hcase with hnone | ⟨r'', hsome, hre⟩
          · rw [hnone] at hfr'
            cases hfr'
          · rw [hsome] at hfr'
            injection hfr' with hr'
            rw [hr'] at hre
            exact not_isEmpty_of_mem hmem' hre
      · rintro ⟨_, v, hv, hBv, hAv⟩
        rw [Roaring64Map.contains] at hBv hAv
        obtain ⟨ro, hfindB, hmemB⟩ := foundContains_true_iff.1 hBv
        have hBentry := findKey_some_mem hfindB
        cases hfindA : Roaring64Map.findKey A.roarings (highBytes v) with
        | none =>
          rw [subsetCondB_iff]
          exact ⟨(highBytes v, ro), hBentry, not_isEmpty_of_mem hmemB,
            Or.inl hfindA⟩
        | some r =>
          by_cases hre : r.isEmpty = true
          · rw [subsetCondB_iff]
            exact ⟨(highBytes v, ro), hBentry, not_isEmpty_of_mem hmemB,
              Or.inr ⟨r, hfindA, hre⟩⟩
          · exfalso
            have hAentry := findKey_some_mem hfindA
            obtain ⟨ro', hfind', hsub'⟩ := subsetLoop_some_subset true false f
              hloop (highBytes v, r) hAentry hre
            rw [hfindB] at hfind'
            injection hfind' with hro
            subst hro
            have hmemsub := isSubset_mem_iff.1 hsub'
            have hnotmem : lowBytes v ∉ r.vals := by
              intro hmem
              exact hAv (foundContains_true_iff.2 ⟨r, hfindA, hmem⟩)
            have hlt := length_lt_of_proper_subset
              ((hA.2 _ hAentry).2).1 ((hB.2 _ hBentry).2).1
              hmemsub hmemB hnotmem
            have hcardne : (highBytes v, r).2.cardinality ≠
                ro.cardinality := by
              rw [Roaring.cardinality, Roaring.cardinality]
              dsimp only at hlt ⊢
              omega
            exact hf ((subsetLoop_some_flag true false f hloop).2
              (Or.inr ⟨rfl, (highBytes v, r), hAentry, hre, ro, hfindB,
                hcardne⟩))

/-- C7 witness: the equivalence evaluated on A = {1} and B = {1, 2}. -/
theorem c7_isStrictSubset_witness :
    (Roaring64Map.WF ⟨[(0, ⟨[1]⟩)], false⟩ ∧
     Roaring64Map.WF ⟨[(0, ⟨[1, 2]⟩)], false⟩) ∧
    (Roaring64Map.isStrictSubset ⟨[(0, ⟨[1]⟩)], false⟩
        ⟨[(0, ⟨[1, 2]⟩)], false⟩ = true ↔
      ((∀ v < 2 ^ 64, Roaring64Map.contains ⟨[(0, ⟨[1]⟩)], false⟩ v = true →
          Roaring64Map.contains ⟨[(0, ⟨[1, 2]⟩)], false⟩ v = true) ∧
        ∃ v < 2 ^ 64,
          Roaring64Map.contains ⟨[(0, ⟨[1, 2]⟩)], false⟩ v = true ∧
          ¬ Roaring64Map.contains ⟨[(0, ⟨[1]⟩)], false⟩ v = true)) :=
  ⟨⟨by decide, by decide⟩,
   c7_isStrictSubset ⟨[(0, ⟨[1]⟩)], false⟩ ⟨[(0, ⟨[1, 2]⟩)], false⟩
     (by decide) (by decide)⟩

theorem mem_mapApply {f : Roaring → Roaring} {k : Nat} :
    ∀ {l : List (Nat × Roaring)} {e : Nat × Roaring},
    e ∈ Roaring64Map.mapApply f k l →
    e ∈ l ∨ (e.1 = k ∧ ∃ r0,
      (r0 = Roaring.empty ∨ ∃ k0, (k0, r0) ∈ l) ∧ e.2 = f r0) := by
  intro l
  induction l with
  | nil =>
    intro e he
    rw [Roaring64Map.mapApply] at he
    rcases List.mem_cons.1 he with rfl | habs
    · exact Or.inr ⟨rfl, Roaring.empty, Or.inl rfl, rfl⟩
    · cases habs
  | cons ehead rest ih =>
    obtain ⟨k', r⟩ := ehead
    intro e he
    rw [Roaring64Map.mapApply] at he
    by_cases h1 : k < k'
    · rw [if_pos h1] at he
      rcases List.mem_cons.1 he with rfl | he'
      · exact Or.inr ⟨rfl, Roaring.empty, Or.inl rfl, rfl⟩
      · exact Or.inl he'
    · rw [if_neg h1] at he
      by_cases h2 : k' = k
      · rw [if_pos h2] at he
        rcases List.mem_cons.1 he with rfl | he'
        · exact Or.inr ⟨h2, r, Or.inr ⟨k', List.mem_cons.2 (Or.inl rfl)⟩,
            rfl⟩
        · exact Or.inl (List.mem_cons.2 (Or.inr he'))
      · rw [if_neg h2] at he
        rcases List.mem_cons.1 he with rfl | he'
        · exact Or.inl (List.mem_cons.2 (Or.inl rfl))
        · rcases ih he' with hmem | ⟨hek, r0, hr0, hfr0⟩
          · exact Or.inl (List.mem_cons.2 (Or.inr hmem))
          · refine Or.inr ⟨hek, r0, ?_, hfr0⟩
            rcases hr0 with h | ⟨k0, hk0⟩
            · exact Or.inl h
            · exact Or.inr ⟨k0, List.mem_cons.2 (Or.inr hk0)⟩

/-! ### C8: double flip is the identity -/

theorem findKey_mapApply_other (f : Roaring → Roaring) {k h : Nat}
    (hkh : h ≠ k) : ∀ l : List (Nat × Roaring),
    Roaring64Map.findKey (Roaring64Map.mapApply f k l) h =
      Roaring64Map.findKey l h := by
  intro l
  induction l with
  | nil =>
    rw [Roaring64Map.mapApply, Roaring64Map.findKey, Roaring64Map.findKey,
      if_neg (fun habs => hkh habs.symm)]
    rfl
  | cons e rest ih =>
    obtain ⟨k', r⟩ := e
    rw [Roaring64Map.mapApply]
    by_cases h1 : k < k'
    · rw [if_pos h1, Roaring64Map.findKey,
        if_neg (fun habs => hkh habs.symm)]
    · rw [if_neg h1]
      by_cases h2 : k' = k
      · rw [if_pos h2, Roaring64Map.findKey, Roaring64Map.findKey]
        rw [if_neg (h2 ▸ fun habs => hkh habs.symm),
          if_neg (h2 ▸ fun habs => hkh habs.symm)]
      · rw [if_neg h2, Roaring64Map.findKey, Roaring64Map.findKey]
        by_cases h3 : k' = h
        · rw [if_pos h3, if_pos h3]
        · rw [if_neg h3, if_neg h3, ih]

theorem findKey_mapApply_same (f : Roaring → Roaring) {k : Nat} :
    ∀ {l : List (Nat × Roaring)}, (l.map Prod.fst).Sorted (· < ·) →
    Roaring64Map.findKey (Roaring64Map.mapApply f k l) k =
      some (f ((Roaring64Map.findKey l k).getD Roaring.empty)) := by
  intro l
  induction l with
  | nil =>
    intro _
    simp [Roaring64Map.mapApply, Roaring64Map.findKey]
  | cons e rest ih =>
    obtain ⟨k', r⟩ := e
    intro hs
    obtain ⟨hks, hrs⟩ := sorted_keys_cons hs
    rw [Roaring64Map.mapApply]
    by_cases h1 : k < k'
    · rw [if_pos h1, Roaring64Map.findKey, if_pos rfl,
        Roaring64Map.findKey, if_neg (by omega)]
      rw [findKey_eq_none (fun e he => by have := hks e he; omega)]
      rfl
    · rw [if_neg h1]
      by_cases h2 : k' = k
      · rw [if_pos h2, Roaring64Map.findKey, if_pos h2,
          Roaring64Map.findKey, if_pos h2]
        rfl
      · rw [if_neg h2, Roaring64Map.findKey, if_neg h2,
          Roaring64Map.findKey, if_neg h2, ih hrs]

theorem mapApply_keys_sorted (f : Roaring → Roaring) {k : Nat} :
    ∀ {l : List (Nat × Roaring)}, (l.map Prod.fst).Sorted (· < ·) →
    ((Roaring64Map.mapApply f k l).map Prod.fst).Sorted (· < ·) := by
  intro l
  induction l with
  | nil =>
    intro _
    rw [Roaring64Map.mapApply]
    simp
  | cons e rest ih =>
    obtain ⟨k', r⟩ := e
    intro hs
    obtain ⟨hks, hrs⟩ := sorted_keys_cons hs
    rw [Roaring64Map.mapApply]
    by_cases h1 : k < k'
    · rw [if_pos h1, List.map_cons, List.sorted_cons]
      refine ⟨?_, hs⟩
      intro b hb
      rw [List.map_cons] at hb
      rcases List.mem_cons.1 hb with rfl | hb'
      · exact h1
      · obtain ⟨e', he', rfl⟩ := List.mem_map.1 hb'
        have := hks e' he'
        omega
    · rw [if_neg h1]
      by_cases h2 : k' = k
      · rw [if_pos h2, List.map_cons, List.sorted_cons]
        refine ⟨?_, hrs⟩
        intro b hb
        obtain ⟨e', he', rfl⟩ := List.mem_map.1 hb
        exact hks e' he'
      · rw [if_neg h2, List.map_cons, List.sorted_cons]
        refine ⟨?_, ih hrs⟩
        intro b hb
        obtain ⟨e', he', rfl⟩ := List.mem_map.1 hb
        rcases mem_mapApply he' with he'' | ⟨hk', _⟩
        · exact hks e' he''
        · rw [hk']
          omega

theorem foundContains_getD (l : List (Nat × Roaring)) (h low : Nat) :
    Roaring64Map.foundContains l h low =
      ((Roaring64Map.findKey l h).getD Roaring.empty).contains low := by
  rw [Roaring64Map.foundContains]
  cases hf : Roaring64Map.findKey l h with
  | none => rfl
  | some r => rfl

theorem flip_contains {r : Roaring} (hs : r.vals.Sorted (· < ·))
    (start exEnd low : Nat) :
    (r.flip start exEnd).contains low =
      if start ≤ low ∧ low < exEnd then !(r.contains low)
      else r.contains low := by
  have hrange : (List.range' start (exEnd - start)).Sorted (· < ·) :=
    List.pairwise_lt_range' start (exEnd - start)
  have hmem := mem_mergeXor low r.vals (List.range' start (exEnd - start))
    hs hrange
  rw [List.mem_range'_1] at hmem
  have harith : (start ≤ low ∧ low < start + (exEnd - start)) ↔
      (start ≤ low ∧ low < exEnd) := by omega
  rw [harith] at hmem
  by_cases hc : start ≤ low ∧ low < exEnd
  · rw [if_pos hc]
    by_cases hA : low ∈ r.vals
    · have h1 : (r.flip start exEnd).contains low = false := by
        simp only [Roaring.flip, Roaring.contains]
        rw [Bool.eq_false_iff]
        intro habs
        rcases hmem.1 ((list_contains_iff _ _).1 habs) with
          ⟨_, habs2⟩ | ⟨_, habs2⟩
        · exact habs2 hc
        · exact habs2 hA
      rw [h1, contains_true_of_mem hA]
      rfl
    · have h1 : (r.flip start exEnd).contains low = true := by
        simp only [Roaring.flip, Roaring.contains]
        rw [list_contains_iff]
        exact hmem.2 (Or.inr ⟨hc, hA⟩)
      have h2 : r.contains low = false := by
        rw [Roaring.contains, Bool.eq_false_iff]
        intro habs
        exact hA ((list_contains_iff _ _).1 habs)
      rw [h1, h2]
      rfl
  · rw [if_neg hc]
    by_cases hA : low ∈ r.vals
    · have h1 : (r.flip start exEnd).contains low = true := by
        simp only [Roaring.flip, Roaring.contains]
        rw [list_contains_iff]
        exact hmem.2 (Or.inl ⟨hA, hc⟩)
      rw [h1, contains_true_of_mem hA]
    · have h1 : (r.flip start exEnd).contains low = false := by
        simp only [Roaring.flip, Roaring.contains]
        rw [Bool.eq_false_iff]
        intro habs
        rcases hmem.1 ((list_contains_iff _ _).1 habs) with
          ⟨habs2, _⟩ | ⟨habs2, _⟩
        · exact hA habs2
        · exact hc habs2
      have h2 : r.contains low = false := by
        rw [Roaring.contains, Bool.eq_false_iff]
        intro habs
        exact hA ((list_contains_iff _ _).1 habs)
      rw [h1, h2]

theorem flip_WF {r : Roaring} (hr : r.WF) {start exEnd : Nat}
    (hE : exEnd ≤ 2 ^ 32) : (r.flip start exEnd).WF := by
  constructor
  · exact sorted_mergeXor _ _ hr.1
      (List.pairwise_lt_range' start (exEnd - start))
  · intro x hx
    rcases mem_mergeXor_sub x _ _ hx with h | h
    · exact hr.2 x h
    · rw [List.mem_range'_1] at h
      omega

theorem uniteBytes_between_iff {sh sl eh el h low : Nat}
    (h2 : sl < 2 ^ 32) (h4 : el < 2 ^ 32) (h6 : low < 2 ^ 32) :
    (uniteBytes sh sl ≤ uniteBytes h low ∧
      uniteBytes h low ≤ uniteBytes eh el) ↔
    ((sh < h ∨ (sh = h ∧ sl ≤ low)) ∧
      (h < eh ∨ (h = eh ∧ low ≤ el))) := by
  rw [uniteBytes_eq sh sl h2, uniteBytes_eq h low h6, uniteBytes_eq eh el h4]
  rw [two_pow_32] at *
  omega

theorem mapApply_entry_prop {f : Roaring → Roaring} {k : Nat}
    {l : List (Nat × Roaring)} (P : Nat × Roaring → Prop)
    (hl : ∀ e ∈ l, P e) (hnew : P (k, f Roaring.empty))
    (hupd : ∀ k0 r0, (k0, r0) ∈ l → P (k, f r0)) :
    ∀ e ∈ Roaring64Map.mapApply f k l, P e := by
  rintro ⟨e1, e2⟩ he
  rcases mem_mapApply he with h | ⟨hek, r0, hr0, hfr0⟩
  · exact hl _ h
  · dsimp only at hek hfr0
    subst hek
    subst hfr0
    rcases hr0 with rfl | ⟨k0, hk0⟩
    · exact hnew
    · exact hupd k0 r0 hk0

theorem empty_WF : Roaring.empty.WF := by
  constructor
  · exact List.sorted_nil
  · intro x hx
    cases hx

theorem getD_WF {l : List (Nat × Roaring)}
    (hw : ∀ e ∈ l, e.1 < 2 ^ 32 ∧ e.2.WF) (h : Nat) :
    ((Roaring64Map.findKey l h).getD Roaring.empty).WF := by
  cases hf : Roaring64Map.findKey l h with
  | none => exact empty_WF
  | some r => exact (hw _ (findKey_some_mem hf)).2

theorem findKey_foldApply (f : Roaring → Roaring) :
    ∀ (ks : List Nat) (l : List (Nat × Roaring)),
    (l.map Prod.fst).Sorted (· < ·) → ks.Nodup →
    (((ks.foldl (fun acc k => Roaring64Map.mapApply f k acc) l).map
        Prod.fst).Sorted (· < ·)) ∧
    (∀ h, h ∉ ks →
      Roaring64Map.findKey
        (ks.foldl (fun acc k => Roaring64Map.mapApply f k acc) l) h =
        Roaring64Map.findKey l h) ∧
    (∀ h, h ∈ ks →
      Roaring64Map.findKey
        (ks.foldl (fun acc k => Roaring64Map.mapApply f k acc) l) h =
        some (f ((Roaring64Map.findKey l h).getD Roaring.empty))) := by
  intro ks
  induction ks with
  | nil =>
    intro l hs _
    exact ⟨hs, fun h _ => rfl, fun h hmem => absurd hmem (List.not_mem_nil h)⟩
  | cons k ks ih =>
    intro l hs hnd
    rw [List.nodup_cons] at hnd
    have hsa := mapApply_keys_sorted f (k := k) hs
    obtain ⟨ihs, ihother, ihin⟩ :=
      ih (Roaring64Map.mapApply f k l) hsa hnd.2
    rw [List.foldl_cons]
    refine ⟨ihs, ?_, ?_⟩
    · intro h hnot
      rw [List.mem_cons, not_or] at hnot
      rw [ihother h hnot.2, findKey_mapApply_other f hnot.1]
    · intro h hmem
      rcases List.mem_cons.1 hmem with rfl | hmem'
      · rw [ihother h hnd.1, findKey_mapApply_same f hs]
      · have hne : h ≠ k := fun habs => hnd.1 (habs ▸ hmem')
        rw [ihin h hmem', findKey_mapApply_other f hne]

theorem mapApply_WF_entries {f : Roaring → Roaring} {k : Nat}
    {l : List (Nat × Roaring)} (hk : k < 2 ^ 32)
    (hfWF : ∀ r, r.WF → (f r).WF)
    (hl : ∀ e ∈ l, e.1 < 2 ^ 32 ∧ e.2.WF) :
    ∀ e ∈ Roaring64Map.mapApply f k l, e.1 < 2 ^ 32 ∧ e.2.WF :=
  mapApply_entry_prop _ hl ⟨hk, hfWF _ empty_WF⟩
    (fun _ r0 h0 => ⟨hk, hfWF _ (hl _ h0).2⟩)

theorem foldApply_WF_entries (f : Roaring → Roaring)
    (hfWF : ∀ r, r.WF → (f r).WF) :
    ∀ (ks : List Nat) (l : List (Nat × Roaring)),
    (∀ k ∈ ks, k < 2 ^ 32) →
    (∀ e ∈ l, e.1 < 2 ^ 32 ∧ e.2.WF) →
    ∀ e ∈ ks.foldl (fun acc k => Roaring64Map.mapApply f k acc) l,
      e.1 < 2 ^ 32 ∧ e.2.WF := by
  intro ks
  induction ks with
  | nil => intro l _ hl; exact hl
  | cons k ks ih =>
    intro l hks hl
    rw [List.foldl_cons]
    apply ih _ (fun k' hk' => hks k' (List.mem_cons.2 (Or.inr hk')))
    exact mapApply_WF_entries (hks k (List.mem_cons.2 (Or.inl rfl))) hfWF hl

theorem WF_mk {l : List (Nat × Roaring)} {cow : Bool}
    (hs : (l.map Prod.fst).Sorted (· < ·))
    (hw : ∀ e ∈ l, e.1 < 2 ^ 32 ∧ e.2.WF) :
    Roaring64Map.WF ⟨l, cow⟩ := ⟨hs, hw⟩

theorem contains_mk (l : List (Nat × Roaring)) (cow : Bool) (v : Nat) :
    Roaring64Map.contains ⟨l, cow⟩ v =
      Roaring64Map.foundContains l (highBytes v) (lowBytes v) := rfl

theorem innerFlipClosed_WF {r : Roaring} (hr : r.WF) {s e : Nat}
    (he : e < 2 ^ 32) : (Roaring64Map.innerFlipClosed r s e).WF :=
  flip_WF hr (by omega)

theorem flipClosed_spec (m : Roaring64Map) (hm : m.WF) {rs re : Nat}
    (h1 : rs ≤ re) (h2 : re < 2 ^ 64) :
    (Roaring64Map.flipClosed m rs re).WF ∧
    (∀ v < 2 ^ 64, (Roaring64Map.flipClosed m rs re).contains v =
      if rs ≤ v ∧ v ≤ re then !(m.contains v) else m.contains v) := by
  have hrs64 : rs < 2 ^ 64 := by omega
  have hsh : highBytes rs < 2 ^ 32 := Nat.mod_lt _ (by norm_num)
  have hsl : lowBytes rs < 2 ^ 32 := Nat.mod_lt _ (by norm_num)
  have heh : highBytes re < 2 ^ 32 := Nat.mod_lt _ (by norm_num)
  have hel : lowBytes re < 2 ^ 32 := Nat.mod_lt _ (by norm_num)
  have hrsu := uniteBytes_high_low rs hrs64
  have hreu := uniteBytes_high_low re h2
  have hdivrs : rs / 2 ^ 32 < 2 ^ 32 := by rw [two_pow_32] at *; omega
  have hdivre : re / 2 ^ 32 < 2 ^ 32 := by rw [two_pow_32] at *; omega
  have hhighrs : highBytes rs = rs / 2 ^ 32 := by
    rw [highBytes_def, Nat.mod_eq_of_lt hdivrs]
  have hhighre : highBytes re = re / 2 ^ 32 := by
    rw [highBytes_def, Nat.mod_eq_of_lt hdivre]
  have hhle : highBytes rs ≤ highBytes re := by
    rw [hhighrs, hhighre]
    exact Nat.div_le_div_right h1
  simp only [Roaring64Map.flipClosed]
  rw [if_neg (show ¬ rs > re by omega)]
  by_cases hsame : highBytes rs = highBytes re
  · rw [if_pos hsame]
    constructor
    · exact WF_mk
        (mapApply_keys_sorted _ hm.1)
        (mapApply_WF_entries hsh
          (fun r hr => innerFlipClosed_WF hr hel) hm.2)
    · intro v hv
      have hh : highBytes v < 2 ^ 32 := Nat.mod_lt _ (by norm_num)
      have hlo : lowBytes v < 2 ^ 32 := Nat.mod_lt _ (by norm_num)
      have hvu := uniteBytes_high_low v hv
      have hcond := @uniteBytes_between_iff (highBytes rs) (lowBytes rs)
        (highBytes re) (lowBytes re) (highBytes v) (lowBytes v)
        hsl hel hlo
      rw [hrsu, hreu, hvu] at hcond
      rw [contains_mk, foundContains_getD]
      by_cases hkh : highBytes v = highBytes rs
      · rw [hkh, findKey_mapApply_same _ hm.1]
        rw [Option.getD_some]
        rw [Roaring64Map.innerFlipClosed]
        rw [flip_contains (getD_WF hm.2 (highBytes rs)).1]
        have hmc : m.contains v =
            ((Roaring64Map.findKey m.roarings
              (highBytes rs)).getD Roaring.empty).contains (lowBytes v) := by
          rw [Roaring64Map.contains, foundContains_getD, hkh]
        rw [hmc]
        have hiff : (lowBytes rs ≤ lowBytes v ∧
            lowBytes v < lowBytes re + 1) ↔ (rs ≤ v ∧ v ≤ re) := by
          rw [hcond]
          omega
        by_cases hc : rs ≤ v ∧ v ≤ re
        · rw [if_pos hc, if_pos (hiff.2 hc)]
        · rw [if_neg hc, if_neg (fun habs => hc (hiff.1 habs))]
      · rw [findKey_mapApply_other _ hkh, ← foundContains_getD]
        rw [show Roaring64Map.foundContains m.roarings (highBytes v)
          (lowBytes v) = m.contains v from rfl]
        rw [if_neg (fun habs => by
          have := hcond.1 habs
          omega)]
  · rw [if_neg hsame]
    have hshlt : highBytes rs < highBytes re := by omega
    have hks_mem : ∀ k, k ∈ List.range' (highBytes rs + 1)
        (highBytes re - (highBytes rs + 1)) ↔
        (highBytes rs < k ∧ k < highBytes re) := by
      intro k
      rw [List.mem_range'_1]
      omega
    have hks_nodup : (List.range' (highBytes rs + 1)
        (highBytes re - (highBytes rs + 1))).Nodup :=
      List.nodup_range' _ _
    have hl1s := mapApply_keys_sorted
      (fun r => Roaring64Map.innerFlipClosed r (lowBytes rs) (2 ^ 32 - 1))
      (k := highBytes rs) hm.1
    obtain ⟨hl2s, hl2other, hl2in⟩ := findKey_foldApply
      (fun r => Roaring64Map.innerFlipClosed r 0 (2 ^ 32 - 1))
      (List.range' (highBytes rs + 1)
        (highBytes re - (highBytes rs + 1))) _ hl1s hks_nodup
    have hl1w : ∀ e ∈ Roaring64Map.mapApply
        (fun r => Roaring64Map.innerFlipClosed r (lowBytes rs) (2 ^ 32 - 1))
        (highBytes rs) m.roarings, e.1 < 2 ^ 32 ∧ e.2.WF :=
      mapApply_WF_entries hsh
        (fun r hr => innerFlipClosed_WF hr (by omega)) hm.2
    have hl2w := foldApply_WF_entries
      (fun r => Roaring64Map.innerFlipClosed r 0 (2 ^ 32 - 1))
      (fun r hr => innerFlipClosed_WF hr (by omega))
      (List.range' (highBytes rs + 1)
        (highBytes re - (highBytes rs + 1))) _
      (fun k hk => by rw [hks_mem] at hk; omega) hl1w
    constructor
    · exact WF_mk
        (mapApply_keys_sorted _ hl2s)
        (mapApply_WF_entries heh
          (fun r hr => innerFlipClosed_WF hr hel) hl2w)
    · intro v hv
      have hh : highBytes v < 2 ^ 32 := Nat.mod_lt _ (by norm_num)
      have hlo : lowBytes v < 2 ^ 32 := Nat.mod_lt _ (by norm_num)
      have hvu := uniteBytes_high_low v hv
      have hcond := @uniteBytes_between_iff (highBytes rs) (lowBytes rs)
        (highBytes re) (lowBytes re) (highBytes v) (lowBytes v)
        hsl hel hlo
      rw [hrsu, hreu, hvu] at hcond
      have hmc : m.contains v =
          ((Roaring64Map.findKey m.roarings
            (highBytes v)).getD Roaring.empty).contains (lowBytes v) := by
        rw [Roaring64Map.contains, foundContains_getD]
      rw [contains_mk, foundContains_getD]
      by_cases hveh : highBytes v = highBytes re
      · -- tail partial flip
        rw [hveh, findKey_mapApply_same _ hl2s]
        rw [Option.getD_some]
        rw [hl2other (highBytes re) (fun habs => by
          rw [hks_mem] at habs
          omega)]
        rw [findKey_mapApply_other _ (fun habs => by omega)]
        rw [Roaring64Map.innerFlipClosed]
        rw [flip_contains (getD_WF hm.2 (highBytes re)).1]
        rw [hmc, hveh]
        have hiff : (0 ≤ lowBytes v ∧ lowBytes v < lowBytes re + 1) ↔
            (rs ≤ v ∧ v ≤ re) := by
          rw [hcond]
          omega
        by_cases hc : rs ≤ v ∧ v ≤ re
        · rw [if_pos hc, if_pos (hiff.2 hc)]
        · rw [if_neg hc, if_neg (fun habs => hc (hiff.1 habs))]
      · rw [findKey_mapApply_other _ hveh]
        by_cases hvmid : highBytes rs < highBytes v ∧
            highBytes v < highBytes re
        · -- full flip of an intermediate key
          rw [hl2in (highBytes v) ((hks_mem _).2 hvmid)]
          rw [findKey_mapApply_other _ (fun habs => by omega)]
          rw [Option.getD_some]
          rw [Roaring64Map.innerFlipClosed]
          rw [flip_contains (getD_WF hm.2 (highBytes v)).1]
          rw [hmc]
          rw [if_pos (show 0 ≤ lowBytes v ∧ lowBytes v < 2 ^ 32 - 1 + 1 by
            omega)]
          rw [if_pos (hcond.2 (by omega))]
        · rw [hl2other (highBytes v) (fun habs => by
            rw [hks_mem] at habs
            exact hvmid habs)]
          by_cases hvsh : highBytes v = highBytes rs
          · -- head partial flip
            rw [hvsh, findKey_mapApply_same _ hm.1]
            rw [Option.getD_some]
            rw [Roaring64Map.innerFlipClosed]
            rw [flip_contains (getD_WF hm.2 (highBytes rs)).1]
            rw [hmc, hvsh]
            have hiff : (lowBytes rs ≤ lowBytes v ∧
                lowBytes v < 2 ^ 32 - 1 + 1) ↔ (rs ≤ v ∧ v ≤ re) := by
              rw [hcond]
              omega
            by_cases hc : rs ≤ v ∧ v ≤ re
            · rw [if_pos hc, if_pos (hiff.2 hc)]
            · rw [if_neg hc, if_neg (fun habs => hc (hiff.1 habs))]
          · -- outside all flipped keys
            rw [findKey_mapApply_other _ hvsh, ← foundContains_getD]
            rw [show Roaring64Map.foundContains m.roarings (highBytes v)
              (lowBytes v) = m.contains v from rfl]
            rw [if_neg (fun habs => by
              have := hcond.1 habs
              omega)]

/-- **C8.** For every Roaring64Map and every pair of 64-bit bounds
range_start ≤ range_end, applying flipClosed(range_start, range_end)
twice in succession yields a bitmap equal (by operator==) to the
original; no value inside or outside the interval changes membership
after the double flip. -/
theorem c8_double_flipClosed (m : Roaring64Map) (hm : m.WF)
    {rs re : Nat} (h1 : rs ≤ re) (h2 : re < 2 ^ 64) :
    Roaring64Map.beq
      (Roaring64Map.flipClosed (Roaring64Map.flipClosed m rs re) rs re)
      m = true ∧
    ∀ v < 2 ^ 64,
      (Roaring64Map.flipClosed
        (Roaring64Map.flipClosed m rs re) rs re).contains v =
      m.contains v := by
  obtain ⟨hw1, hc1⟩ := flipClosed_spec m hm h1 h2
  obtain ⟨hw2, hc2⟩ := flipClosed_spec _ hw1 h1 h2
  have hpt : ∀ v < 2 ^ 64,
      (Roaring64Map.flipClosed
        (Roaring64Map.flipClosed m rs re) rs re).contains v =
      m.contains v := by
    intro v hv
    rw [hc2 v hv, hc1 v hv]
    by_cases hc : rs ≤ v ∧ v ≤ re
    · rw [if_pos hc, if_pos hc, Bool.not_not]
    · rw [if_neg hc, if_neg hc]
  exact ⟨(beq_iff_contains_ext _ _ hw2 hm).2 hpt, hpt⟩

/-- Witness for C8 at a concrete map and range. -/
theorem c8_double_flipClosed_witness :
    (Roaring64Map.WF ⟨[(0, ⟨[3]⟩)], false⟩) ∧
    (0 : Nat) ≤ 9 ∧ (9 : Nat) < 2 ^ 64 ∧
    (Roaring64Map.beq
      (Roaring64Map.flipClosed
        (Roaring64Map.flipClosed ⟨[(0, ⟨[3]⟩)], false⟩ 0 9) 0 9)
      ⟨[(0, ⟨[3]⟩)], false⟩ = true ∧
    ∀ v < 2 ^ 64,
      (Roaring64Map.flipClosed
        (Roaring64Map.flipClosed ⟨[(0, ⟨[3]⟩)], false⟩ 0 9) 0 9).contains v =
      (⟨[(0, ⟨[3]⟩)], false⟩ : Roaring64Map).contains v) :=
  ⟨by decide, by decide, by decide,
    c8_double_flipClosed ⟨[(0, ⟨[3]⟩)], false⟩ (by decide)
      (by decide) (by decide)⟩

theorem encodeLE_length (w : Nat) : ∀ n, (encodeLE w n).length = w := by
  induction w with
  | zero => intro n; rfl
  | succ w ih =>
    intro n
    rw [encodeLE]
    simp [ih]

theorem decodeLE_encodeLE (w : Nat) : ∀ n, n < 256 ^ w →
    decodeLE (encodeLE w n) = n := by
  induction w with
  | zero =>
    intro n hn
    simp only [pow_zero, Nat.lt_one_iff] at hn
    subst hn
    rfl
  | succ w ih =>
    intro n hn
    rw [encodeLE, decodeLE, ih (n / 256) (by
      rw [pow_succ] at hn
      exact (Nat.div_lt_iff_lt_mul (by norm_num)).2 hn)]
    omega

theorem flatMap4_length : ∀ vs : List Nat,
    (vs.flatMap (encodeLE 4)).length = 4 * vs.length := by
  intro vs
  induction vs with
  | nil => rfl
  | cons a l ih =>
    rw [List.flatMap_cons]
    simp [encodeLE_length, ih]
    omega

theorem write_length (r : Roaring) (p : Bool) :
    (r.write p).length = r.getSizeInBytes p := by
  rw [Roaring.write, Roaring.getSizeInBytes, List.length_append,
    flatMap4_length, encodeLE_length]

theorem decodeList32_flatMap : ∀ (vs : List Nat), (∀ v ∈ vs, v < 2 ^ 32) →
    ∀ suffix, decodeList32 vs.length (vs.flatMap (encodeLE 4) ++ suffix)
      = vs := by
  intro vs
  induction vs with
  | nil => intro _ suffix; rfl
  | cons a l ih =>
    intro hv suffix
    rw [List.flatMap_cons, List.append_assoc, List.length_cons, decodeList32]
    rw [List.take_left' (encodeLE_length 4 a),
      List.drop_left' (encodeLE_length 4 a)]
    rw [decodeLE_encodeLE 4 a (by
      rw [show (256 : Nat) ^ 4 = 2 ^ 32 by norm_num]
      exact hv a (List.mem_cons.2 (Or.inl rfl)))]
    rw [ih (fun v hv' => hv v (List.mem_cons.2 (Or.inr hv'))) suffix]

theorem read_write_inner {r : Roaring} (hr : r.WF) (p : Bool)
    (suffix : List Nat) : Roaring.read (r.write p ++ suffix) p = r := by
  have hlen : r.vals.length ≤ 2 ^ 32 := sorted_length_le hr.1 (2 ^ 32) hr.2
  rw [Roaring.read, Roaring.write, List.append_assoc]
  rw [List.take_left' (encodeLE_length 8 _),
    List.drop_left' (encodeLE_length 8 _)]
  rw [decodeLE_encodeLE 8 _ (by
    rw [show (256 : Nat) ^ 8 = 2 ^ 64 by norm_num]
    have h32 : (2 : Nat) ^ 32 < 2 ^ 64 := by norm_num
    omega)]
  rw [decodeList32_flatMap r.vals hr.2 suffix]

theorem emplaceOrInsert_append {key : Nat} {v : Roaring} :
    ∀ {acc : List (Nat × Roaring)}, (∀ e ∈ acc, e.1 < key) →
    Roaring64Map.emplaceOrInsert key v acc = acc ++ [(key, v)] := by
  intro acc
  induction acc with
  | nil => intro _; rfl
  | cons e rest ih =>
    intro h
    obtain ⟨k, r⟩ := e
    have hk := h (k, r) (List.mem_cons.2 (Or.inl rfl))
    rw [Roaring64Map.emplaceOrInsert, if_neg (by omega), if_neg (by omega)]
    rw [ih (fun e he => h e (List.mem_cons.2 (Or.inr he)))]
    rfl

theorem foldl_emplace : ∀ (l acc : List (Nat × Roaring)),
    ((acc ++ l).map Prod.fst).Sorted (· < ·) →
    l.foldl (fun a e => Roaring64Map.emplaceOrInsert e.1 e.2 a) acc
      = acc ++ l := by
  intro l
  induction l with
  | nil => intro acc _; simp
  | cons e rest ih =>
    intro acc hs
    obtain ⟨k, r⟩ := e
    rw [List.foldl_cons]
    have hlt : ∀ e' ∈ acc, e'.1 < k := by
      intro e' he'
      rw [List.map_append, List.Sorted, List.pairwise_append] at hs
      exact hs.2.2 e'.1 (List.mem_map.2 ⟨e', he', rfl⟩) k
        (by rw [List.map_cons]; exact List.mem_cons.2 (Or.inl rfl))
    rw [emplaceOrInsert_append hlt]
    rw [ih (acc ++ [(k, r)]) (by rw [List.append_assoc]; exact hs)]
    rw [List.append_assoc]
    rfl

theorem readLoop_spec (p : Bool) : ∀ (l : List (Nat × Roaring))
    (suffix : List Nat) (acc : List (Nat × Roaring)),
    (∀ e ∈ l, e.1 < 2 ^ 32 ∧ e.2.WF) →
    Roaring64Map.readLoop p l.length
      (l.flatMap (fun e => encodeLE 4 e.1 ++ e.2.write p) ++ suffix) acc =
    l.foldl (fun a e => Roaring64Map.emplaceOrInsert e.1 e.2 a) acc := by
  intro l
  induction l with
  | nil => intro suffix acc _; rfl
  | cons e rest ih =>
    intro suffix acc hw
    obtain ⟨k, r⟩ := e
    have hkr := hw (k, r) (List.mem_cons.2 (Or.inl rfl))
    rw [List.flatMap_cons, List.append_assoc, List.append_assoc,
      List.length_cons]
    simp only [Roaring64Map.readLoop]
    rw [List.take_left' (encodeLE_length 4 k),
      List.drop_left' (encodeLE_length 4 k)]
    rw [decodeLE_encodeLE 4 k (by
      rw [show (256 : Nat) ^ 4 = 2 ^ 32 by norm_num]
      exact hkr.1)]
    rw [read_write_inner hkr.2 p]
    rw [List.drop_left' (write_length r p)]
    rw [List.foldl_cons]
    exact ih suffix _ (fun e he => hw e (List.mem_cons.2 (Or.inr he)))

theorem read_write_roarings (m : Roaring64Map) (hm : m.WF) (p : Bool)
    (suffix : List Nat) :
    (Roaring64Map.read (m.write p ++ suffix) p).roarings = m.roarings := by
  have hlen : m.roarings.length ≤ 2 ^ 32 := by
    have h := sorted_length_le hm.1 (2 ^ 32) (fun x hx => by
      obtain ⟨e, he, hex⟩ := List.mem_map.1 hx
      exact hex ▸ (hm.2 e he).1)
    rw [List.length_map] at h
    exact h
  simp only [Roaring64Map.read, Roaring64Map.write]
  rw [List.append_assoc]
  rw [List.take_left' (encodeLE_length 8 _),
    List.drop_left' (encodeLE_length 8 _)]
  rw [decodeLE_encodeLE 8 _ (by
    rw [show (256 : Nat) ^ 8 = 2 ^ 64 by norm_num]
    have h32 : (2 : Nat) ^ 32 < 2 ^ 64 := by norm_num
    omega)]
  rw [readLoop_spec p m.roarings suffix [] hm.2]
  rw [foldl_emplace m.roarings [] (by simpa using hm.1)]
  rfl

/-- **C5.** For every Roaring64Map A and every flag portable in
{true, false}, writing A with write(buf, portable) into a sufficiently
large buffer and then parsing that buffer with read(buf, portable) yields
a bitmap equal (by operator==) to A. -/
theorem c5_write_read (A : Roaring64Map) (hA : A.WF) (portable : Bool)
    (rest : List Nat) :
    Roaring64Map.beq
      (Roaring64Map.read (A.write portable ++ rest) portable) A = true := by
  show Roaring64Map.beqAux
    (Roaring64Map.read (A.write portable ++ rest) portable).roarings
    A.roarings = true
  rw [read_write_roarings A hA portable rest]
  exact (beqAux_eq A.roarings A.roarings).2 rfl

/-- Witness for C5 at a concrete map, flag, and trailing bytes. -/
theorem c5_write_read_witness :
    (Roaring64Map.WF ⟨[(1, ⟨[2, 5]⟩)], false⟩) ∧
    Roaring64Map.beq
      (Roaring64Map.read
        ((Roaring64Map.write ⟨[(1, ⟨[2, 5]⟩)], false⟩ true) ++ [0, 7]) true)
      ⟨[(1, ⟨[2, 5]⟩)], false⟩ = true :=
  ⟨by decide, c5_write_read ⟨[(1, ⟨[2, 5]⟩)], false⟩ (by decide) true [0, 7]⟩

/-! ### C4: fastunion vs. the left fold of pairwise union -/

theorem any_congr_mem {α : Type} {l : List α} {p q : α → Bool}
    (h : ∀ a ∈ l, p a = q a) : l.any p = l.any q := by
  induction l with
  | nil => rfl
  | cons a rest ih =>
    rw [List.any_cons, List.any_cons, h a (List.mem_cons.2 (Or.inl rfl)),
      ih (fun a ha => h a (List.mem_cons.2 (Or.inr ha)))]

theorem mem_or {a b : Roaring} {x : Nat} :
    x ∈ (a.or b).vals ↔ x ∈ a.vals ∨ x ∈ b.vals :=
  mem_mergeOr x a.vals b.vals

theorem or_WF {a b : Roaring} (ha : a.WF) (hb : b.WF) : (a.or b).WF := by
  constructor
  · exact sorted_mergeOr a.vals b.vals ha.1 hb.1
  · intro x hx
    rcases mem_or.1 hx with h | h
    · exact ha.2 x h
    · exact hb.2 x h

theorem or_contains (a b : Roaring) (x : Nat) :
    (a.or b).contains x = (a.contains x || b.contains x) := by
  apply Bool.coe_iff_coe.mp
  rw [Roaring.contains, Roaring.contains, Roaring.contains, Bool.or_eq_true,
    list_contains_iff, list_contains_iff, list_contains_iff]
  exact mem_or

theorem foldl_or_contains : ∀ (l : List Roaring) (acc : Roaring) (x : Nat),
    (l.foldl Roaring.or acc).contains x =
      (acc.contains x || l.any (fun r => r.contains x)) := by
  intro l
  induction l with
  | nil => intro acc x; simp
  | cons r rest ih =>
    intro acc x
    rw [List.foldl_cons, ih, or_contains, List.any_cons, Bool.or_assoc]

theorem orMany_contains (l : List Roaring) (x : Nat) :
    (orMany l).contains x = l.any (fun r => r.contains x) := by
  rw [orMany, foldl_or_contains]
  rfl

theorem foldl_or_WF : ∀ (l : List Roaring) (acc : Roaring),
    (∀ r ∈ l, r.WF) → acc.WF → (l.foldl Roaring.or acc).WF := by
  intro l
  induction l with
  | nil => intro acc _ hacc; exact hacc
  | cons r rest ih =>
    intro acc h hacc
    rw [List.foldl_cons]
    exact ih _ (fun r' hr' => h r' (List.mem_cons.2 (Or.inr hr')))
      (or_WF hacc (h r (List.mem_cons.2 (Or.inl rfl))))

theorem orMany_WF {l : List Roaring} (h : ∀ r ∈ l, r.WF) :
    (orMany l).WF := foldl_or_WF l Roaring.empty h empty_WF

theorem fastunionGo_eq_nil {ls : List (List (Nat × Roaring))}
    (h : (headKeys ls).min? = none) : fastunionGo ls = [] := by
  rw [fastunionGo.eq_def]
  split
  · rfl
  · next t heq =>
    rw [h] at heq
    simp at heq

theorem fastunionGo_eq_cons {ls : List (List (Nat × Roaring))} {t : Nat}
    (h : (headKeys ls).min? = some t) :
    fastunionGo ls = (t, orMany (gatherTarget t ls)) ::
      fastunionGo (ls.map (advOne t)) := by
  rw [fastunionGo.eq_def]
  split
  · next heq =>
    rw [h] at heq
    simp at heq
  · next t' heq =>
    rw [h] at heq
    injection heq with heq'
    subst heq'
    rfl

theorem advOne_keys_sub (t : Nat) (l1 : List (Nat × Roaring)) (x : Nat)
    (hx : x ∈ (advOne t l1).map Prod.fst) : x ∈ l1.map Prod.fst := by
  cases l1 with
  | nil => simpa [advOne] using hx
  | cons e0 rest =>
    obtain ⟨k0, r0⟩ := e0
    rw [advOne] at hx
    split at hx
    · simp only [List.map_cons]
      exact List.mem_cons.2 (Or.inr hx)
    · exact hx

theorem foundContains_advOne {t k : Nat} (hkt : ¬ t = k)
    (l : List (Nat × Roaring)) (low : Nat) :
    Roaring64Map.foundContains (advOne t l) k low =
      Roaring64Map.foundContains l k low := by
  cases l with
  | nil => rfl
  | cons e0 rest =>
    obtain ⟨k0, r0⟩ := e0
    rw [advOne]
    by_cases h0 : k0 = t
    · rw [if_pos h0, foundContains_cons, if_neg (by omega)]
    · rw [if_neg h0]

theorem fastunionGo_spec : ∀ ls : List (List (Nat × Roaring)),
    (∀ l ∈ ls, (l.map Prod.fst).Sorted (· < ·) ∧
      ∀ e ∈ l, e.1 < 2 ^ 32 ∧ e.2.WF) →
    (∀ e ∈ fastunionGo ls, ∃ l ∈ ls, e.1 ∈ l.map Prod.fst) ∧
    ((fastunionGo ls).map Prod.fst).Sorted (· < ·) ∧
    (∀ e ∈ fastunionGo ls, e.1 < 2 ^ 32 ∧ e.2.WF) ∧
    (∀ k low, Roaring64Map.foundContains (fastunionGo ls) k low =
      ls.any (fun l => Roaring64Map.foundContains l k low)) := by
  intro ls
  induction ls using fastunionGo.induct with
  | case1 ls h =>
    intro hls
    have hempty : ∀ l ∈ ls, l = [] := by
      intro l hl
      cases l with
      | nil => rfl
      | cons e rest =>
        exfalso
        rw [List.min?_eq_none_iff] at h
        have hmem : e.1 ∈ headKeys ls := List.mem_flatMap.2
          ⟨e :: rest, hl, by simp [headKeyList]⟩
        rw [h] at hmem
        cases hmem
    rw [fastunionGo_eq_nil h]
    refine ⟨by simp, by simp, by simp, ?_⟩
    intro k low
    rw [foundContains_nil]
    symm
    apply List.any_eq_false.mpr
    intro l hl
    rw [hempty l hl, foundContains_nil]
    simp
  | case2 ls t h ih =>
    intro hls
    obtain ⟨hmem, hle⟩ := (List.min?_eq_some_iff (fun x => le_refl x)
      (fun x y => min_choice x y) (fun _ _ _ => le_min_iff)).1 h
    obtain ⟨l0, hl0, ht0⟩ := List.mem_flatMap.1 hmem
    have hadv : ∀ l ∈ ls.map (advOne t),
        (l.map Prod.fst).Sorted (· < ·) ∧
        ∀ e ∈ l, e.1 < 2 ^ 32 ∧ e.2.WF := by
      intro l hl
      obtain ⟨l1, hl1, hl1e⟩ := List.mem_map.1 hl
      obtain ⟨hs1, hw1⟩ := hls l1 hl1
      subst hl1e
      cases l1 with
      | nil => exact ⟨by simp [advOne], by simp [advOne]⟩
      | cons e0 rest =>
        obtain ⟨k0, r0⟩ := e0
        simp only [List.map_cons] at hs1
        rw [advOne]
        split
        · exact ⟨(List.sorted_cons.1 hs1).2,
            fun e' he' => hw1 e' (List.mem_cons.2 (Or.inr he'))⟩
        · exact ⟨by simp only [List.map_cons]; exact hs1, hw1⟩
    obtain ⟨ih1, ih2, ih3, ih4⟩ := ih hadv
    simp only [advanceTarget] at ih1 ih2 ih3 ih4
    have hgt : ∀ e ∈ fastunionGo (ls.map (advOne t)), t < e.1 := by
      intro e he
      obtain ⟨l', hl', hk⟩ := ih1 e he
      obtain ⟨l1, hl1, rfl⟩ := List.mem_map.1 hl'
      cases l1 with
      | nil => simp [advOne] at hk
      | cons e0 rest =>
        obtain ⟨k0, r0⟩ := e0
        have hk0 : t ≤ k0 := hle k0 (List.mem_flatMap.2
          ⟨(k0, r0) :: rest, hl1, by simp [headKeyList]⟩)
        have hs1 := (hls _ hl1).1
        simp only [List.map_cons] at hs1
        rw [advOne] at hk
        by_cases hkt : k0 = t
        · rw [if_pos hkt] at hk
          have := (List.sorted_cons.1 hs1).1 e.1 hk
          omega
        · rw [if_neg hkt] at hk
          simp only [List.map_cons] at hk
          rcases List.mem_cons.1 hk with h0 | h0
          · omega
          · have := (List.sorted_cons.1 hs1).1 e.1 h0
            omega
    rw [fastunionGo_eq_cons h]
    refine ⟨?_, ?_, ?_, ?_⟩
    · intro e he
      rcases List.mem_cons.1 he with rfl | he'
      · cases l0 with
        | nil => simp [headKeyList] at ht0
        | cons e0 rest =>
          obtain ⟨k0, r0⟩ := e0
          simp only [headKeyList, List.mem_singleton] at ht0
          refine ⟨(k0, r0) :: rest, hl0, ?_⟩
          simp only [List.map_cons]
          exact List.mem_cons.2 (Or.inl ht0)
      · obtain ⟨l', hl', hk⟩ := ih1 e he'
        obtain ⟨l1, hl1, rfl⟩ := List.mem_map.1 hl'
        exact ⟨l1, hl1, advOne_keys_sub t l1 e.1 hk⟩
    · simp only [List.map_cons]
      rw [List.sorted_cons]
      refine ⟨?_, ih2⟩
      intro b hb
      obtain ⟨e, he, rfl⟩ := List.mem_map.1 hb
      exact hgt e he
    · intro e he
      rcases List.mem_cons.1 he with rfl | he'
      · constructor
        · cases l0 with
          | nil => simp [headKeyList] at ht0
          | cons e0 rest =>
            obtain ⟨k0, r0⟩ := e0
            simp only [headKeyList, List.mem_singleton] at ht0
            have := ((hls _ hl0).2 (k0, r0)
              (List.mem_cons.2 (Or.inl rfl))).1
            omega
        · apply orMany_WF
          intro r hr
          obtain ⟨l1, hl1, hr1⟩ := List.mem_flatMap.1 hr
          cases l1 with
          | nil => simp [gatherOne] at hr1
          | cons e0 rest =>
            obtain ⟨k0, r0⟩ := e0
            rw [gatherOne] at hr1
            split at hr1
            · simp only [List.mem_singleton] at hr1
              subst hr1
              exact ((hls _ hl1).2 (k0, r)
                (List.mem_cons.2 (Or.inl rfl))).2
            · cases hr1
      · exact ih3 e he'
    · intro k low
      rw [foundContains_cons]
      by_cases hkt : t = k
      · subst hkt
        rw [if_pos rfl]
        rw [orMany_contains, gatherTarget, List.any_flatMap]
        apply any_congr_mem
        intro l hl
        cases l with
        | nil => rw [foundContains_nil]; rfl
        | cons e0 rest =>
          obtain ⟨k0, r0⟩ := e0
          have hk0 : t ≤ k0 := hle k0 (List.mem_flatMap.2
            ⟨(k0, r0) :: rest, hl, by simp [headKeyList]⟩)
          have hs1 := (hls _ hl).1
          simp only [List.map_cons] at hs1
          rw [gatherOne, foundContains_cons]
          by_cases h0 : k0 = t
          · rw [if_pos h0, if_pos h0]
            simp
          · rw [if_neg h0, if_neg h0]
            rw [foundContains_eq_false low (fun e' he' => by
              have := (List.sorted_cons.1 hs1).1 e'.1
                (List.mem_map.2 ⟨e', he', rfl⟩)
              omega)]
            rfl
      · rw [if_neg hkt, ih4 k low, List.any_map]
        apply any_congr_mem
        intro l hl
        exact foundContains_advOne hkt l low

theorem empty_or (rb : Roaring) : Roaring.empty.or rb = rb := by
  show (⟨Roaring.mergeOr [] rb.vals⟩ : Roaring) = rb
  rw [Roaring.mergeOr]

theorem insertOrCombine_eq_mapApply (k : Nat) (rb : Roaring) :
    ∀ l : List (Nat × Roaring), insertOrCombine k rb l =
      Roaring64Map.mapApply (fun r => r.or rb) k l := by
  intro l
  induction l with
  | nil => rw [insertOrCombine, Roaring64Map.mapApply, empty_or]
  | cons e rest ih =>
    obtain ⟨k', r⟩ := e
    rw [insertOrCombine, Roaring64Map.mapApply]
    by_cases h1 : k < k'
    · rw [if_pos h1, if_pos h1, empty_or]
    · rw [if_neg h1, if_neg h1]
      by_cases h2 : k = k'
      · rw [if_pos h2, if_pos h2.symm]
      · rw [if_neg h2, if_neg (fun hh => h2 hh.symm), ih]

theorem foundContains_insertOrCombine {l : List (Nat × Roaring)}
    (hs : (l.map Prod.fst).Sorted (· < ·)) (k1 : Nat) (rb : Roaring)
    (k low : Nat) :
    Roaring64Map.foundContains (insertOrCombine k1 rb l) k low =
      (Roaring64Map.foundContains l k low ||
        (decide (k1 = k) && rb.contains low)) := by
  rw [insertOrCombine_eq_mapApply]
  by_cases hk : k = k1
  · subst hk
    rw [foundContains_getD, findKey_mapApply_same _ hs, Option.getD_some,
      or_contains, ← foundContains_getD]
    simp
  · rw [foundContains_getD, findKey_mapApply_other _ hk l,
      ← foundContains_getD]
    have hd : (decide (k1 = k)) = false :=
      decide_eq_false (fun habs => hk habs.symm)
    rw [hd]
    simp

theorem foundContains_eq_any : ∀ {l : List (Nat × Roaring)},
    ((l.map Prod.fst).Sorted (· < ·)) → ∀ (k low : Nat),
    Roaring64Map.foundContains l k low =
      l.any (fun e => decide (e.1 = k) && e.2.contains low) := by
  intro l
  induction l with
  | nil => intro _ k low; rfl
  | cons e rest ih =>
    intro hs k low
    obtain ⟨k0, r0⟩ := e
    simp only [List.map_cons] at hs
    rw [foundContains_cons, List.any_cons]
    by_cases h0 : k0 = k
    · rw [if_pos h0]
      have hrest : rest.any (fun e => decide (e.1 = k) && e.2.contains low)
          = false := by
        apply List.any_eq_false.mpr
        intro e' he'
        have := (List.sorted_cons.1 hs).1 e'.1
          (List.mem_map.2 ⟨e', he', rfl⟩)
        simp only [Bool.and_eq_true, decide_eq_true_eq, not_and]
        intro habs
        omega
      rw [hrest]
      simp [h0]
    · rw [if_neg h0, ih (List.sorted_cons.1 hs).2 k low]
      simp [h0]

theorem foldIns_spec : ∀ (ol acc : List (Nat × Roaring)),
    (∀ e ∈ ol, e.1 < 2 ^ 32 ∧ e.2.WF) →
    ((acc.map Prod.fst).Sorted (· < ·)) →
    (∀ e ∈ acc, e.1 < 2 ^ 32 ∧ e.2.WF) →
    (((ol.foldl (fun a e => insertOrCombine e.1 e.2 a) acc).map
        Prod.fst).Sorted (· < ·)) ∧
    (∀ e ∈ ol.foldl (fun a e => insertOrCombine e.1 e.2 a) acc,
      e.1 < 2 ^ 32 ∧ e.2.WF) ∧
    (∀ k low, Roaring64Map.foundContains
        (ol.foldl (fun a e => insertOrCombine e.1 e.2 a) acc) k low =
      (Roaring64Map.foundContains acc k low ||
        ol.any (fun e => decide (e.1 = k) && e.2.contains low))) := by
  intro ol
  induction ol with
  | nil =>
    intro acc _ hs hw
    refine ⟨hs, hw, ?_⟩
    intro k low
    simp
  | cons e ol' ih =>
    intro acc hol hs hw
    obtain ⟨k1, rb⟩ := e
    have he1 := hol (k1, rb) (List.mem_cons.2 (Or.inl rfl))
    rw [List.foldl_cons]
    have hs' : ((insertOrCombine k1 rb acc).map Prod.fst).Sorted (· < ·) := by
      rw [insertOrCombine_eq_mapApply]
      exact mapApply_keys_sorted _ hs
    have hw' : ∀ e ∈ insertOrCombine k1 rb acc, e.1 < 2 ^ 32 ∧ e.2.WF := by
      rw [insertOrCombine_eq_mapApply]
      exact mapApply_WF_entries he1.1 (fun r hr => or_WF hr he1.2) hw
    obtain ⟨c1, c2, c3⟩ := ih (insertOrCombine k1 rb acc)
      (fun e he => hol e (List.mem_cons.2 (Or.inr he))) hs' hw'
    refine ⟨c1, c2, ?_⟩
    intro k low
    rw [c3 k low, foundContains_insertOrCombine hs k1 rb k low,
      List.any_cons, Bool.or_assoc]

theorem or64_spec {m other : Roaring64Map} (hm : m.WF) (ho : other.WF) :
    (m.or64 other).WF ∧
    ∀ k low, Roaring64Map.foundContains (m.or64 other).roarings k low =
      (Roaring64Map.foundContains m.roarings k low ||
        Roaring64Map.foundContains other.roarings k low) := by
  obtain ⟨c1, c2, c3⟩ := foldIns_spec other.roarings m.roarings ho.2 hm.1 hm.2
  refine ⟨⟨c1, c2⟩, ?_⟩
  intro k low
  rw [show (m.or64 other).roarings = other.roarings.foldl
    (fun a e => insertOrCombine e.1 e.2 a) m.roarings from rfl]
  rw [c3 k low]
  congr 1
  exact (foundContains_eq_any ho.1 k low).symm

theorem foldl_or64_spec : ∀ (inputs : List Roaring64Map)
    (acc : Roaring64Map), (∀ m ∈ inputs, m.WF) → acc.WF →
    (inputs.foldl Roaring64Map.or64 acc).WF ∧
    ∀ k low, Roaring64Map.foundContains
        (inputs.foldl Roaring64Map.or64 acc).roarings k low =
      (Roaring64Map.foundContains acc.roarings k low ||
        inputs.any (fun m =>
          Roaring64Map.foundContains m.roarings k low)) := by
  intro inputs
  induction inputs with
  | nil => intro acc _ hacc; exact ⟨hacc, fun k low => by simp⟩
  | cons m rest ih =>
    intro acc h hacc
    rw [List.foldl_cons]
    have hm := h m (List.mem_cons.2 (Or.inl rfl))
    obtain ⟨hw1, hc1⟩ := or64_spec hacc hm
    obtain ⟨hw2, hc2⟩ := ih (acc.or64 m)
      (fun m' hm' => h m' (List.mem_cons.2 (Or.inr hm'))) hw1
    refine ⟨hw2, ?_⟩
    intro k low
    rw [hc2 k low, hc1 k low, List.any_cons, Bool.or_assoc]

theorem foldUnion_spec (inputs : List Roaring64Map)
    (h : ∀ m ∈ inputs, m.WF) :
    (Roaring64Map.foldUnion inputs).WF ∧
    ∀ k low, Roaring64Map.foundContains
        (Roaring64Map.foldUnion inputs).roarings k low =
      inputs.any (fun m => Roaring64Map.foundContains m.roarings k low) := by
  have hempty : (⟨[], false⟩ : Roaring64Map).WF := ⟨List.sorted_nil, by simp⟩
  obtain ⟨hw, hc⟩ := foldl_or64_spec inputs ⟨[], false⟩ h hempty
  refine ⟨hw, ?_⟩
  intro k low
  have hres := hc k low
  rw [show Roaring64Map.foundContains
    (⟨[], false⟩ : Roaring64Map).roarings k low = false from rfl] at hres
  rw [Bool.false_or] at hres
  exact hres

theorem any_map_eq {α β : Type} (l : List α) (f : α → β) (p : β → Bool) :
    (l.map f).any p = l.any (fun a => p (f a)) := by
  induction l with
  | nil => rfl
  | cons a rest ih => rw [List.map_cons, List.any_cons, List.any_cons, ih]

/-- **C4.** For every n ≥ 0 and every array of n input Roaring64Maps,
fastunion(n, inputs) returns a bitmap equal (by operator==) to the left
fold of pairwise union (operator|) over the inputs; equivalently, it
contains exactly those 64-bit values present in at least one input. -/
theorem c4_fastunion (inputs : List Roaring64Map)
    (h : ∀ m ∈ inputs, m.WF) :
    Roaring64Map.beq (Roaring64Map.fastunion inputs)
      (Roaring64Map.foldUnion inputs) = true ∧
    ∀ v < 2 ^ 64, (Roaring64Map.fastunion inputs).contains v =
      inputs.any (fun m => m.contains v) := by
  have hls : ∀ l ∈ inputs.map Roaring64Map.roarings,
      (l.map Prod.fst).Sorted (· < ·) ∧
      ∀ e ∈ l, e.1 < 2 ^ 32 ∧ e.2.WF := by
    intro l hl
    obtain ⟨m, hm, rfl⟩ := List.mem_map.1 hl
    exact ⟨(h m hm).1, (h m hm).2⟩
  obtain ⟨g1, g2, g3, g4⟩ :=
    fastunionGo_spec (inputs.map Roaring64Map.roarings) hls
  have hfuWF : (Roaring64Map.fastunion inputs).WF := WF_mk g2 g3
  obtain ⟨hfoWF, hfoC⟩ := foldUnion_spec inputs h
  have hpt : ∀ v, (Roaring64Map.fastunion inputs).contains v =
      inputs.any (fun m => m.contains v) := by
    intro v
    rw [show Roaring64Map.fastunion inputs =
      (⟨fastunionGo (inputs.map Roaring64Map.roarings), false⟩ :
        Roaring64Map) from rfl, contains_mk]
    rw [g4 (highBytes v) (lowBytes v), any_map_eq]
    exact any_congr_mem (fun m hm => rfl)
  constructor
  · apply (beq_iff_contains_ext _ _ hfuWF hfoWF).2
    intro v hv
    rw [hpt v]
    rw [show (Roaring64Map.foldUnion inputs).contains v =
      Roaring64Map.foundContains (Roaring64Map.foldUnion inputs).roarings
        (highBytes v) (lowBytes v) from rfl]
    rw [hfoC (highBytes v) (lowBytes v)]
    exact any_congr_mem (fun m hm => rfl)
  · intro v hv
    exact hpt v

/-- Witness for C4 at two concrete input maps. -/
theorem c4_fastunion_witness :
    (∀ m ∈ [(⟨[(0, ⟨[1]⟩)], false⟩ : Roaring64Map),
      ⟨[(0, ⟨[2]⟩), (1, ⟨[0]⟩)], false⟩], Roaring64Map.WF m) ∧
    (Roaring64Map.beq
      (Roaring64Map.fastunion [⟨[(0, ⟨[1]⟩)], false⟩,
        ⟨[(0, ⟨[2]⟩), (1, ⟨[0]⟩)], false⟩])
      (Roaring64Map.foldUnion [⟨[(0, ⟨[1]⟩)], false⟩,
        ⟨[(0, ⟨[2]⟩), (1, ⟨[0]⟩)], false⟩]) = true ∧
    ∀ v < 2 ^ 64,
      (Roaring64Map.fastunion [⟨[(0, ⟨[1]⟩)], false⟩,
        ⟨[(0, ⟨[2]⟩), (1, ⟨[0]⟩)], false⟩]).contains v =
      [(⟨[(0, ⟨[1]⟩)], false⟩ : Roaring64Map),
        ⟨[(0, ⟨[2]⟩), (1, ⟨[0]⟩)], false⟩].any (fun m => m.contains v)) :=
  ⟨by decide, c4_fastunion [⟨[(0, ⟨[1]⟩)], false⟩,
    ⟨[(0, ⟨[2]⟩), (1, ⟨[0]⟩)], false⟩] (by decide)⟩

end CRoaring
